import Mathlib

/-!
Verification development for the DP_BPE byte-pair-encoding library
(`bpe/__init__.py`).  Python strings are modelled as `List Char`,
Python dicts as insertion-ordered association lists, Python objects
held both in the bigram dictionary and in the search set as entries of
an explicit heap addressed by integer ids (so that aliasing and stale
references behave as in the source).  Fallible operations (KeyError,
TypeError) return `Except Err`.
-/

set_option autoImplicit false

namespace DPBPE

/-- A subword symbol: a Python string, modelled as a list of characters. -/
abbrev Sym : Type := List Char

/-- A whole-word token string. -/
abbrev Token : Type := List Char

/-- `StringPair` from the source: an ordered pair of subword strings. -/
abbrev SPair : Type := Sym × Sym

/-- The end-of-token marker character. -/
def endMark : Char := '_'

/-- The apostrophe character (kept by text normalization). -/
def apoChar : Char := Char.ofNat 39

/-- Errors a Python run can raise in the modelled fragment. -/
inductive Err where
  | keyError
  | typeError
  | valueError
  | attributeError
  | fuel
  deriving DecidableEq, Repr

deriving instance DecidableEq for Except

/-! ### Insertion-ordered dictionaries (Python `dict` / `defaultdict`) -/

/-- Lookup in an insertion-ordered association list. -/
def dictGet {α β : Type} [DecidableEq α] (k : α) : List (α × β) → Option β
  | [] => none
  | (k₀, v₀) :: rest => if k₀ = k then some v₀ else dictGet k rest

/-- `d[k] = v`: replace in place if the key is present, else append
(Python dicts keep insertion order; assignment to a present key keeps
its position). -/
def dictSet {α β : Type} [DecidableEq α] (k : α) (v : β) : List (α × β) → List (α × β)
  | [] => [(k, v)]
  | (k₀, v₀) :: rest => if k₀ = k then (k, v) :: rest else (k₀, v₀) :: dictSet k v rest

/-- `del d[k]`: remove the (first) binding of `k`. -/
def dictDel {α β : Type} [DecidableEq α] (k : α) : List (α × β) → List (α × β)
  | [] => []
  | (k₀, v₀) :: rest => if k₀ = k then rest else (k₀, v₀) :: dictDel k rest

/-! ### The merge pass (cursor loop of `Word.apply_model` / `Vocabulary.replace_bigram`)

The Python loop scans `subwords` left to right with a cursor `i`; on a
match of `(a, b)` it writes the concatenation at `i`, deletes position
`i+1` and advances the cursor past the merged symbol, so merges are
non-overlapping left-to-right. -/

/-- One left-to-right non-overlapping merge of the pair `(a, b)`. -/
def mergePass (a b : Sym) : List Sym → List Sym
  | [] => []
  | [x] => [x]
  | x :: y :: rest =>
    if x = a ∧ y = b then (a ++ b) :: mergePass a b rest
    else x :: mergePass a b (y :: rest)

/-- `l` contains the pair `(a, b)` at some adjacent position. -/
def HasAdj (a b : Sym) : List Sym → Prop
  | x :: y :: rest => (x = a ∧ y = b) ∨ HasAdj a b (y :: rest)
  | _ => False

instance decHasAdj (a b : Sym) : (l : List Sym) → Decidable (HasAdj a b l)
  | [] => isFalse (fun h => h)
  | [_] => isFalse (fun h => h)
  | x :: y :: rest =>
    have : Decidable (HasAdj a b (y :: rest)) := decHasAdj a b (y :: rest)
    inferInstanceAs (Decidable ((x = a ∧ y = b) ∨ HasAdj a b (y :: rest)))

/-! ### `BPEModel` and `Word` -/

/-- `BPEModel`: an ordered list of subword concatenation operations. -/
structure BPEModel where
  operations : List SPair
  deriving DecidableEq, Repr

/-- `Word.apply_model`'s effect on a symbol sequence: replay every
operation of the model in order with the merge cursor loop. -/
def applyOps (ops : List SPair) (subwords : List Sym) : List Sym :=
  ops.foldl (fun s p => mergePass p.1 p.2 s) subwords

/-- A `Word`: token string, frequency, current subword mapping. -/
structure Word where
  token : Token
  frequency : Int
  subwords : List Sym
  deriving DecidableEq, Repr

/-- `Word.__init__`: frequency zero, subwords split into single
characters followed by the end-of-token symbol. -/
def Word.init (token : Token) : Word :=
  { token := token, frequency := 0
    subwords := token.map (fun c => [c]) ++ [[endMark]] }

/-- `Word.update_frequency`. -/
def Word.update_frequency (w : Word) (n : Int) : Word :=
  { w with frequency := w.frequency + n }

/-- `Word.apply_model`. -/
def Word.apply_model (w : Word) (m : BPEModel) : Word :=
  { w with subwords := applyOps m.operations w.subwords }

/-! ### Text normalization (`add_text` / `encode_text`)

`text.upper()` followed by `sub(r"[^A-Z']", " ", text)` followed by
`text.split()`.  Characters are handled at ASCII level (the library's
declared scope). -/

/-- Python `str.split()` whitespace (ASCII fragment). -/
def isPyWhite (c : Char) : Bool :=
  c == ' ' || c == '\t' || c == '\n' || c == '\r' || c == '\x0b' || c == '\x0c'

/-- A character kept by the normalization character class `[A-Z']`. -/
def isKeep (c : Char) : Bool :=
  (65 ≤ c.toNat && c.toNat ≤ 90) || c.toNat = 39

/-- `sub(r"[^A-Z']", " ", ·)` on one character. -/
def scrubChar (c : Char) : Char :=
  if isKeep c then c else ' '

/-- Uppercase then scrub one character. -/
def normChar (c : Char) : Char :=
  scrubChar c.toUpper

/-- Worker for `split()`: accumulates the current (reversed) token. -/
def pySplitGo (acc : List Char) : List Char → List (List Char)
  | [] => if acc = [] then [] else [acc.reverse]
  | c :: cs =>
    if isPyWhite c then
      if acc = [] then pySplitGo [] cs else acc.reverse :: pySplitGo [] cs
    else pySplitGo (c :: acc) cs

/-- Python `str.split()`: split on whitespace runs, dropping empties. -/
def pySplit (l : List Char) : List (List Char) :=
  pySplitGo [] l

/-- Python `str.strip()`. -/
def pyStrip (l : List Char) : List Char :=
  ((l.dropWhile isPyWhite).reverse.dropWhile isPyWhite).reverse

/-- `' '.join`: join strings with single spaces. -/
def joinSp : List (List Char) → List Char
  | [] => []
  | [x] => x
  | x :: xs => x ++ ' ' :: joinSp xs

/-! ### `Vocabulary` -/

/-- A vocabulary: insertion-ordered token dictionary plus the set of
single-character subword strings seen (`characters`). -/
structure Vocabulary where
  words : List (Token × Word)
  characters : Finset Sym
  deriving DecidableEq

/-- `Vocabulary.__init__`. -/
def Vocabulary.empty : Vocabulary :=
  { words := [], characters := ∅ }

/-- `Vocabulary.missing`. -/
def Vocabulary.missing (voc : Vocabulary) (token : Token) : Bool :=
  (dictGet token voc.words).isNone

/-- `Vocabulary.add_word`: create a fresh `Word`, store it, add its
initial (per-character) subwords to the character set, then optionally
apply a model to the stored word. -/
def Vocabulary.add_word (voc : Vocabulary) (token : Token) (model : Option BPEModel) :
    Vocabulary :=
  let w0 := Word.init token
  let chars := voc.characters ∪ w0.subwords.toFinset
  let w := match model with
    | some m => w0.apply_model m
    | none => w0
  { words := dictSet token w voc.words, characters := chars }

/-- `Vocabulary.num_characters`. -/
def Vocabulary.num_characters (voc : Vocabulary) : Nat :=
  voc.characters.card

/-- One token of `add_text`'s loop: create the word if missing, then
increment its frequency by one. -/
def addTokenStep (voc : Vocabulary) (token : Token) : Vocabulary :=
  let voc := if voc.missing token then voc.add_word token none else voc
  match dictGet token voc.words with
  | some w => { voc with words := dictSet token (w.update_frequency 1) voc.words }
  | none => voc

/-- `Vocabulary.add_text`: normalize, split into tokens, create missing
words and increment each token's frequency by one. -/
def Vocabulary.add_text (voc : Vocabulary) (text : List Char) : Vocabulary :=
  (pySplit (text.map normChar)).foldl addTokenStep voc

/-- `Vocabulary.reset_subwords`. -/
def Vocabulary.reset_subwords (voc : Vocabulary) : Vocabulary :=
  { voc with
    words := voc.words.map (fun kv =>
      (kv.1, { kv.2 with subwords := (Word.init kv.2.token).subwords })) }

/-- `Vocabulary.map_to_subwords` (`None` models Python's `KeyError`). -/
def Vocabulary.map_to_subwords (voc : Vocabulary) (token : Token) : Option (List Char) :=
  (dictGet token voc.words).map (fun w => joinSp w.subwords)

/-! ### `Vocabulary.replace_bigram` -/

/-- The cursor loop of `replace_bigram` on one word: returns the new
subword list together with the neighbouring-pair frequency deltas
recorded at each merge site, in recording order.  `prev` is the symbol
before the cursor (already rewritten), `w` the word's frequency. -/
def replaceGo (a b : Sym) (w : Int) : Option Sym → List Sym → List Sym × List (SPair × Int)
  | _, [] => ([], [])
  | _, [x] => ([x], [])
  | prev, x :: y :: rest =>
    if x = a ∧ y = b then
      let m := a ++ b
      let d1 : List (SPair × Int) := match prev with
        | some p => [((p, a), -w), ((p, m), w)]
        | none => []
      let d2 : List (SPair × Int) := match rest with
        | z :: _ => [((b, z), -w), ((m, z), w)]
        | [] => []
      let r := replaceGo a b w (some m) rest
      (m :: r.1, d1 ++ d2 ++ r.2)
    else
      let r := replaceGo a b w (some x) (y :: rest)
      (x :: r.1, r.2)

/-- The nested `defaultdict` update
`bigram_updates[pair][token] += n` (outer and inner keys appended on
first touch, kept in place afterwards). -/
def addDelta (p : SPair) (tok : Token) (n : Int)
    (ds : List (SPair × List (Token × Int))) : List (SPair × List (Token × Int)) :=
  match dictGet p ds with
  | none => ds ++ [(p, [(tok, n)])]
  | some inner =>
    match dictGet tok inner with
    | none => dictSet p (inner ++ [(tok, n)]) ds
    | some v => dictSet p (dictSet tok (v + n) inner) ds

/-- One token's worth of `replace_bigram`: rewrite the word's subwords
through the cursor loop and fold its deltas into the accumulator. -/
def replaceStep (pair : SPair) (st : Vocabulary × List (SPair × List (Token × Int)))
    (tok : Token) : Except Err (Vocabulary × List (SPair × List (Token × Int))) :=
  match dictGet tok st.1.words with
  | none => .error .keyError
  | some w =>
    let r := replaceGo pair.1 pair.2 w.frequency none w.subwords
    let voc' := { st.1 with words := dictSet tok { w with subwords := r.1 } st.1.words }
    let ds := r.2.foldl (fun ds pn => addDelta pn.1 tok pn.2 ds) st.2
    .ok (voc', ds)

/-- `Vocabulary.replace_bigram`: for every token of the bigram's
`token_frequency` (passed as `tokens`, in dictionary order), run the
merge cursor loop on its word and accumulate the neighbouring-pair
deltas into a nested dictionary. -/
def Vocabulary.replace_bigram (voc : Vocabulary) (pair : SPair) (tokens : List Token) :
    Except Err (Vocabulary × List (SPair × List (Token × Int))) :=
  tokens.foldlM (replaceStep pair)
    (voc, ([] : List (SPair × List (Token × Int))))

/-! ### Vocabulary file loading -/

/-- Decimal digit run (`none` on empty input or a non-digit). -/
def digitsVal (l : List Char) : Option Nat :=
  if l = [] then none
  else l.foldlM (fun acc c => if c.isDigit then some (acc * 10 + (c.toNat - 48)) else none) 0

/-- Python `int(·)` on an already-stripped field: optional sign then digits. -/
def parseInt : List Char → Option Int
  | '-' :: rest => (digitsVal rest).map (fun n => -(n : Int))
  | '+' :: rest => (digitsVal rest).map (fun n => (n : Int))
  | s => (digitsVal s).map (fun n => (n : Int))

/-- One line of `from_vocabulary_file`: uppercase, split into exactly
`token frequency`, (re)create the word with `add_word` and add the
parsed frequency. -/
def vocabLineStep (voc : Vocabulary) (line : List Char) : Except Err Vocabulary :=
  match pySplit (line.map Char.toUpper) with
  | [token, freqStr] =>
    match parseInt freqStr with
    | none => .error .valueError
    | some f =>
      match dictGet token (voc.add_word token none).words with
      | some w =>
        .ok { voc.add_word token none with
              words := dictSet token (w.update_frequency f) (voc.add_word token none).words }
      | none => .error .keyError
  | _ => .error .valueError

/-- `Vocabulary.from_vocabulary_file`: fold `vocabLineStep` over the
lines, starting from an empty vocabulary. -/
def Vocabulary.from_vocabulary_file (lines : List (List Char)) : Except Err Vocabulary :=
  lines.foldlM vocabLineStep Vocabulary.empty

/-! ### Encoder and decoder -/

/-- One token of `encode_text`'s loop: add a missing word (applying
the model to it), then emit its space-joined subwords. -/
def encodeStep (m : BPEModel) (st : List (List Char) × Vocabulary) (tok : Token) :
    Except Err (List (List Char) × Vocabulary) :=
  let voc := st.2
  let voc := if voc.missing tok then voc.add_word tok (some m) else voc
  match voc.map_to_subwords tok with
  | some enc => .ok (st.1 ++ [enc], voc)
  | none => .error .keyError

/-- `encode_text`: normalize and split the text, run `encodeStep` over
the tokens, and join the per-token encodings with spaces. -/
def encode_text (text : List Char) (m : BPEModel) (voc : Vocabulary) :
    Except Err (List Char × Vocabulary) :=
  let toks := pySplit (text.map normChar)
  let res : Except Err (List (List Char) × Vocabulary) :=
    toks.foldlM (encodeStep m) ([], voc)
  res.map (fun st => (joinSp st.1, st.2))

/-- `decode_subwords`: delete spaces, replace the end-of-token marker
by a space, strip. -/
def decode_subwords (s : List Char) : List Char :=
  pyStrip ((s.filter (fun c => c ≠ ' ')).map (fun c => if c = endMark then ' ' else c))

/-! ### `Statistics`

Python `Bigram` objects are simultaneously values of the `bigrams`
dictionary and members of the `search_set`; mutation through one view
is visible through the other, and a dictionary deletion can leave a
stale object in the set.  We model the objects in a heap (`objs`,
addressed by allocation index); the dictionary maps pairs to ids and
the search set is a list of ids (its order standing for Python's
unspecified set iteration order).  The `in_search_set` flag of an
object is its id's membership in `search_set`. -/

/-- A `Bigram` object: pair, total frequency, per-token frequencies. -/
structure BEntry where
  subword_pair : SPair
  frequency : Int
  token_frequency : List (Token × Int)
  deriving DecidableEq, Repr

/-- `Bigram.update_token_frequencies`: add each update to the token's
entry (dropping it when it reaches zero) and to the total frequency. -/
def BEntry.updTF (e : BEntry) (upds : List (Token × Int)) : BEntry :=
  upds.foldl
    (fun e tn =>
      let cur := (dictGet tn.1 e.token_frequency).getD 0
      let v := cur + tn.2
      let tf := if v = 0 then dictDel tn.1 e.token_frequency
                else dictSet tn.1 v e.token_frequency
      { e with token_frequency := tf, frequency := e.frequency + tn.2 })
    e

/-- The `Statistics` state. -/
structure Stats where
  objs : List BEntry
  bigrams : List (SPair × Nat)
  max_frequency : Int
  search_set : List Nat
  threshold : Option Int
  adaptation_parameter : Int
  deriving DecidableEq, Repr

/-- `Statistics.__init__`. -/
def Stats.empty : Stats :=
  { objs := [], bigrams := [], max_frequency := 0, search_set := []
    threshold := none, adaptation_parameter := 0 }

/-- Dereference a bigram object id. -/
def Stats.getObj (s : Stats) (id : Nat) : Option BEntry :=
  s.objs[id]?

/-- Overwrite a bigram object in place. -/
def Stats.setObj (s : Stats) (id : Nat) (e : BEntry) : Stats :=
  { s with objs := s.objs.set id e }

/-- `Statistics.missing`. -/
def Stats.missing (s : Stats) (p : SPair) : Bool :=
  (dictGet p s.bigrams).isNone

/-- `Statistics.add_bigram`: allocate a fresh zero-frequency object and
bind the pair to it. -/
def Stats.add_bigram (s : Stats) (p : SPair) : Stats :=
  { s with
    objs := s.objs ++ [{ subword_pair := p, frequency := 0, token_frequency := [] }]
    bigrams := dictSet p s.objs.length s.bigrams }

/-- `Bigram.add_to_search_set` (`set.add` is a no-op on a member). -/
def Stats.add_to_search_set (s : Stats) (id : Nat) : Stats :=
  if s.search_set.contains id then s
  else { s with search_set := s.search_set ++ [id] }

/-- `Bigram.remove_from_search_set` (`set.remove` raises `KeyError` on
a non-member). -/
def Stats.remove_from_search_set (s : Stats) (id : Nat) : Except Err Stats :=
  if s.search_set.contains id then
    .ok { s with search_set := s.search_set.filter (fun i => i ≠ id) }
  else .error .keyError

/-- `Statistics.remove_bigram`: delete the object's pair from the
dictionary and remove the object from the search set. -/
def Stats.remove_bigram (s : Stats) (id : Nat) : Except Err Stats :=
  match s.getObj id with
  | none => .error .keyError
  | some e =>
    match dictGet e.subword_pair s.bigrams with
    | none => .error .keyError
    | some _ =>
      Stats.remove_from_search_set { s with bigrams := dictDel e.subword_pair s.bigrams } id

/-- `Statistics.update_bigram_frequencies`: locate or create each
pair's object, apply its token updates, maintain search-set membership
against the threshold, and delete the dictionary entry of a pair whose
frequency reached zero. -/
def Stats.update_bigram_frequencies (s : Stats)
    (updates : List (SPair × List (Token × Int))) : Except Err Stats :=
  updates.foldlM
    (fun s pu =>
      let s := if s.missing pu.1 then s.add_bigram pu.1 else s
      match dictGet pu.1 s.bigrams with
      | none => .error .keyError
      | some id =>
        match s.getObj id with
        | none => .error .keyError
        | some e =>
          let e := e.updTF pu.2
          let s := s.setObj id e
          match s.threshold with
          | none => .error .typeError
          | some t =>
            let s :=
              if t ≤ e.frequency then s.add_to_search_set id
              else if s.search_set.contains id then
                { s with search_set := s.search_set.filter (fun i => i ≠ id) }
              else s
            .ok (if e.frequency = 0 then { s with bigrams := dictDel pu.1 s.bigrams } else s))
    s

/-- Ceiling division `⌈x / y⌉` for `y > 0`, via floor division. -/
def ceilDiv (x y : Int) : Int :=
  -((-x).fdiv y)

/-- The exact value of Python's `ceil(p / (1 + 2 ** a))`.  For `a ≥ 0`
the reduction factor `1 + 2^a` is an integer; for `a < 0` it is
`(2^k + 1) / 2^k` with `k = -a`, so the quotient is
`p·2^k / (2^k + 1)`.  (Python computes this with float division; the
exact rational value is used here.) -/
def thresholdCeil (p a : Int) : Int :=
  if 0 ≤ a then ceilDiv p (1 + ((2 ^ a.toNat : Nat) : Int))
  else ceilDiv (p * ((2 ^ (-a).toNat : Nat) : Int)) (((2 ^ (-a).toNat : Nat) : Int) + 1)

/-- `Statistics.set_threshold`: if a non-zero maximum frequency is
supplied it replaces the previous threshold as the base; the new
threshold is `min(ceil(prev / reduction), prev - 1)`.  A still-unset
threshold is Python's `None`, and arithmetic on it a `TypeError`. -/
def Stats.set_threshold (s : Stats) (mf : Option Int) : Except Err Stats :=
  let prev : Option Int :=
    match mf with
    | some v => if v = 0 then s.threshold else some v
    | none => s.threshold
  match prev with
  | none => .error .typeError
  | some p =>
    .ok { s with
          threshold := some (min (thresholdCeil p s.adaptation_parameter) (p - 1)) }

/-- One dictionary entry of `build_search_set`'s loop: add the entry's
object to the search set when it meets the threshold. -/
def buildStep (t : Int) (s : Stats) (kv : SPair × Nat) : Except Err Stats :=
  match Stats.getObj s kv.2 with
  | none => .error .keyError
  | some e => .ok (if t ≤ e.frequency then s.add_to_search_set kv.2 else s)

/-- `Statistics.build_search_set`: add every dictionary bigram meeting
the threshold, then adapt the parameter toward the target size 100. -/
def Stats.build_search_set (s : Stats) : Except Err Stats :=
  match s.threshold with
  | none => .error .typeError
  | some t => do
    let s' ← s.bigrams.foldlM (buildStep t) s
    let sz := s'.search_set.length
    .ok { s' with
          adaptation_parameter :=
            if sz < 100 then s'.adaptation_parameter + 1
            else if 100 < sz then s'.adaptation_parameter - 2
            else s'.adaptation_parameter }

/-- The linear scan of the search set in `max_bigram`, with the early
exit once the current best ties the previous round's `max_frequency`. -/
def scanGo (objs : List BEntry) (mf : Int) : Nat → BEntry → List Nat → Except Err (Nat × BEntry)
  | bestId, bestE, [] => .ok (bestId, bestE)
  | bestId, bestE, id :: rest =>
    match objs[id]? with
    | none => .error .keyError
    | some e =>
      if bestE.frequency < e.frequency then scanGo objs mf id e rest
      else if bestE.frequency = mf then .ok (bestId, bestE)
      else scanGo objs mf bestId bestE rest

/-- `Statistics.max_bigram`: none on an empty pair dictionary; with an
empty search set, lower the threshold, rebuild and recurse; otherwise
scan the search set and record the winner's frequency as the new
`max_frequency`.  `fuel` bounds the rebuild recursion depth. -/
def Stats.max_bigram : Nat → Stats → Except Err (Option Nat × Stats)
  | 0, _ => .error .fuel
  | fuel + 1, s =>
    if s.bigrams.isEmpty then .ok (none, s)
    else
      match s.search_set with
      | id0 :: rest =>
        match s.getObj id0 with
        | none => .error .keyError
        | some e0 =>
          match scanGo s.objs s.max_frequency id0 e0 (id0 :: rest) with
          | .error er => .error er
          | .ok (rid, re) => .ok (some rid, { s with max_frequency := re.frequency })
      | [] =>
        match s.set_threshold none with
        | .error er => .error er
        | .ok s1 =>
          match s1.build_search_set with
          | .error er => .error er
          | .ok s2 =>
            match Stats.max_bigram fuel s2 with
            | .error er => .error er
            | .ok (some rid, s3) =>
              match s3.getObj rid with
              | none => .error .attributeError
              | some re => .ok (some rid, { s3 with max_frequency := re.frequency })
            | .ok (none, _) => .error .attributeError

/-- Adjacent pairs of a symbol sequence. -/
def pairsOf : List Sym → List SPair
  | x :: y :: rest => (x, y) :: pairsOf (y :: rest)
  | _ => []

/-- `Statistics.from_vocabulary`: count every adjacent pair of every
word scaled by the word's frequency, tracking the running maximum, then
seed the threshold with it and build the initial search set. -/
def Stats.from_vocabulary (voc : Vocabulary) : Except Err Stats := do
  let s ← voc.words.foldlM
    (fun s kv =>
      (pairsOf kv.2.subwords).foldlM
        (fun s pr =>
          let s := if s.missing pr then s.add_bigram pr else s
          match dictGet pr s.bigrams with
          | none => .error .keyError
          | some id =>
            match Stats.getObj s id with
            | none => .error .keyError
            | some e =>
              let e := e.updTF [(kv.2.token, kv.2.frequency)]
              let s := Stats.setObj s id e
              .ok (if s.max_frequency < e.frequency
                   then { s with max_frequency := e.frequency } else s))
        s)
    Stats.empty
  let s ← s.set_threshold (some s.max_frequency)
  s.build_search_set

/-! ### Trainer -/

/-- The body of `train_model`'s loop, `n` iterations remaining.  The
boolean reports the early stop ("Stopped early with N operations"). -/
def trainLoop (fuel : Nat) : Nat → Vocabulary → Stats → BPEModel →
    Except Err (BPEModel × Bool × Vocabulary × Stats)
  | 0, voc, stats, model => .ok (model, false, voc, stats)
  | n + 1, voc, stats, model =>
    match Stats.max_bigram fuel stats with
    | .error e => .error e
    | .ok (none, stats') => .ok (model, true, voc, stats')
    | .ok (some id, stats') =>
      match stats'.getObj id with
      | none => .error .keyError
      | some mb =>
        let model := { operations := model.operations ++ [mb.subword_pair] }
        match voc.replace_bigram mb.subword_pair (mb.token_frequency.map Prod.fst) with
        | .error e => .error e
        | .ok (voc', updates) =>
          match stats'.remove_bigram id with
          | .error e => .error e
          | .ok stats'' =>
            match stats''.update_bigram_frequencies updates with
            | .error e => .error e
            | .ok stats''' => trainLoop fuel n voc' stats''' model

/-- `train_model`: reset subwords, build statistics, then run up to
`max_subwords - num_characters()` merge iterations. -/
def train_model (fuel : Nat) (voc : Vocabulary) (max_subwords : Int) :
    Except Err (BPEModel × Bool × Vocabulary × Stats) :=
  let voc := voc.reset_subwords
  match Stats.from_vocabulary voc with
  | .error e => .error e
  | .ok stats =>
    trainLoop fuel (max_subwords - (voc.num_characters : Int)).toNat voc stats
      { operations := [] }

/-- `Vocabulary.from_text_file`: ingest every line with `add_text`. -/
def Vocabulary.from_text_file (lines : List (List Char)) : Vocabulary :=
  lines.foldl Vocabulary.add_text Vocabulary.empty

/-! ### Statement-level definitions -/

/-- The `Word` invariant of the specification: the concatenation of
`subwords` equals `token` followed by the end-of-token marker. -/
def WordInv (w : Word) : Prop :=
  w.subwords.flatten = w.token ++ [endMark]

/-- The set of characters appearing in some token of the vocabulary,
following the specification's words (for comparison with the code's
`characters` set). -/
def specTokenChars (voc : Vocabulary) : Finset Char :=
  voc.words.foldr (fun kv s => kv.1.toFinset ∪ s) ∅

/-- The specification's normalization of a text: uppercase, replace
every character outside the kept class by a space, and join the
resulting tokens with single spaces. -/
def normalizeText (t : List Char) : List Char :=
  joinSp (pySplit (t.map normChar))

/-- The frequencies of the bigram objects currently bound in the
dictionary. -/
def Stats.dictFreqs (s : Stats) : List Int :=
  s.bigrams.filterMap (fun kv => (Stats.getObj s kv.2).map BEntry.frequency)

/-- Every stored word's subwords concatenate to its key followed by the
end-of-token marker. -/
def VocFlat (voc : Vocabulary) : Prop :=
  ∀ t w, dictGet t voc.words = some w → w.subwords.flatten = t ++ [endMark]

/-- `e` is a space-joined segmentation of the token `t` (with marker). -/
def EncOf (t : Token) (e : List Char) : Prop :=
  ∃ subs : List Sym, e = joinSp subs ∧ subs.flatten = t ++ [endMark]

/-- Relation between the `characters` set and the tokens of a
vocabulary built from text: the token characters are all in `[A-Z']`,
and `characters` is exactly their singleton strings together with the
end-of-token marker (empty for an empty vocabulary). -/
def CharsSpec (voc : Vocabulary) : Prop :=
  (∀ c ∈ specTokenChars voc, isKeep c = true) ∧
  (voc.words = [] ∧ voc.characters = ∅ ∨
   voc.words ≠ [] ∧
     voc.characters = insert [endMark] ((specTokenChars voc).image (fun c => ([c] : Sym))))

/-- Convenience: the character list of a string literal. -/
def strOf (s : String) : List Char :=
  s.data

/-! ### Concrete inputs used by witnesses and counterexamples -/

/-- The vocabulary of the corpus `"aaa"`. -/
def vocAAA : Vocabulary :=
  Vocabulary.from_text_file [strOf "aaa"]

/-- The vocabulary of the corpus `"aaaa"` (spec scenario 2). -/
def vocAAAA : Vocabulary :=
  Vocabulary.from_text_file [strOf "aaaa"]

/-- The bigram pair `(A, A)`. -/
def pairAA : SPair :=
  (strOf "A", strOf "A")

/-- The bigram pair `(A, B)`. -/
def pairAB : SPair :=
  (strOf "A", strOf "B")

/-- A vocabulary file naming the same token on two lines. -/
def dupLines : List (List Char) :=
  [strOf "A 2", strOf "A 3"]

/-- A model whose second operation builds the symbol `YZ` consumed by
its first operation. -/
def cexModel : BPEModel :=
  { operations := [(strOf "X", strOf "YZ"), (strOf "Y", strOf "Z")] }

/-- A word carrying the symbol sequence `[X, Y, Z]`. -/
def cexWord : Word :=
  { token := strOf "XYZ", frequency := 0, subwords := [strOf "X", strOf "Y", strOf "Z"] }

/-- A single-operation demonstration model. -/
def demoModel : BPEModel :=
  { operations := [(strOf "A", strOf "B")] }

/-- A word carrying the symbol sequence `[A, B, C]`. -/
def demoWord : Word :=
  { token := strOf "ABC", frequency := 0, subwords := [strOf "A", strOf "B", strOf "C"] }

/-- A small well-formed statistics state: one bigram `(A, B)` with
frequency 2, in the search set, threshold 1. -/
def demoStats : Stats :=
  { objs := [{ subword_pair := pairAB, frequency := 2,
               token_frequency := [(strOf "AB", 2)] }]
    bigrams := [(pairAB, 0)]
    max_frequency := 2
    search_set := [0]
    threshold := some 1
    adaptation_parameter := 0 }

/-! ## Lemmas about the merge pass -/

theorem not_hasAdj_tail {a b x y : Sym} {rest : List Sym}
    (h : ¬ HasAdj a b (x :: y :: rest)) : ¬ HasAdj a b (y :: rest) :=
  fun h' => h (Or.inr h')

theorem not_hasAdj_drop2 {a b x y : Sym} {rest : List Sym}
    (h : ¬ HasAdj a b (x :: y :: rest)) : ¬ HasAdj a b rest := by
  intro h'
  cases rest with
  | nil => exact h'
  | cons w r => exact h (Or.inr (Or.inr h'))

theorem append_ne_left {a b : Sym} (hb : b ≠ []) : a ++ b ≠ a := by
  intro h
  have hl := congrArg List.length h
  simp [List.length_append] at hl
  exact hb hl

theorem append_ne_right {a b : Sym} (ha : a ≠ []) : a ++ b ≠ b := by
  intro h
  have hl := congrArg List.length h
  simp [List.length_append] at hl
  exact ha hl

theorem mergePass_cons_shape (c d z : Sym) (l : List Sym) :
    (∃ t, mergePass c d (z :: l) = z :: t) ∨
    (∃ t, mergePass c d (z :: l) = (c ++ d) :: t) := by
  cases l with
  | nil => exact Or.inl ⟨[], rfl⟩
  | cons w r =>
    by_cases h : z = c ∧ w = d
    · exact Or.inr ⟨mergePass c d r, by simp [mergePass, if_pos h]⟩
    · exact Or.inl ⟨mergePass c d (w :: r), by simp [mergePass, if_neg h]⟩

theorem join_mergePass (a b : Sym) (l : List Sym) :
    (mergePass a b l).flatten = l.flatten := by
  induction l using mergePass.induct a b with
  | case1 => rfl
  | case2 x => rfl
  | case3 x y rest h ih =>
    obtain ⟨rfl, rfl⟩ := h
    simp [mergePass, ih]
  | case4 x y rest h ih => simp [mergePass, if_neg h, ih]

theorem not_hasAdj_mergePass_self {a b : Sym} (ha : a ≠ []) (hb : b ≠ [])
    (l : List Sym) : ¬ HasAdj a b (mergePass a b l) := by
  induction l using mergePass.induct a b with
  | case1 => exact fun h => h
  | case2 x => exact fun h => h
  | case3 x y rest h ih =>
    obtain ⟨rfl, rfl⟩ := h
    rw [show mergePass x y (x :: y :: rest) = (x ++ y) :: mergePass x y rest from by
      simp [mergePass]]
    cases hM : mergePass x y rest with
    | nil => exact fun h => h
    | cons e t =>
      rw [hM] at ih
      intro hAdj
      rcases hAdj with ⟨h1, _⟩ | h2
      · exact append_ne_left hb h1
      · exact ih h2
  | case4 x y rest h ih =>
    rw [show mergePass a b (x :: y :: rest) = x :: mergePass a b (y :: rest) from by
      simp [mergePass, if_neg h]]
    rcases mergePass_cons_shape a b y rest with ⟨t, heq⟩ | ⟨t, heq⟩ <;> rw [heq] at ih ⊢
    · intro hAdj
      rcases hAdj with h1 | h2
      · exact h h1
      · exact ih h2
    · intro hAdj
      rcases hAdj with ⟨_, h1⟩ | h2
      · exact append_ne_right ha h1
      · exact ih h2

theorem not_hasAdj_mergePass_other {a b c d : Sym} (h1 : c ++ d ≠ a) (h2 : c ++ d ≠ b)
    {l : List Sym} (h : ¬ HasAdj a b l) : ¬ HasAdj a b (mergePass c d l) := by
  induction l using mergePass.induct c d with
  | case1 => exact fun h' => h'
  | case2 x => exact fun h' => h'
  | case3 x y rest hm ih =>
    obtain ⟨rfl, rfl⟩ := hm
    rw [show mergePass x y (x :: y :: rest) = (x ++ y) :: mergePass x y rest from by
      simp [mergePass]]
    have ih' := ih (not_hasAdj_drop2 h)
    cases hM : mergePass x y rest with
    | nil => exact fun h' => h'
    | cons e t =>
      rw [hM] at ih'
      intro hAdj
      rcases hAdj with ⟨hx, _⟩ | hr
      · exact h1 hx
      · exact ih' hr
  | case4 x y rest hm ih =>
    rw [show mergePass c d (x :: y :: rest) = x :: mergePass c d (y :: rest) from by
      simp [mergePass, if_neg hm]]
    have ih' := ih (not_hasAdj_tail h)
    rcases mergePass_cons_shape c d y rest with ⟨t, heq⟩ | ⟨t, heq⟩ <;> rw [heq] at ih' ⊢
    · intro hAdj
      rcases hAdj with hxy | hr
      · exact h (Or.inl hxy)
      · exact ih' hr
    · intro hAdj
      rcases hAdj with ⟨_, hcd⟩ | hr
      · exact h2 hcd
      · exact ih' hr

theorem mergePass_eq_of_not_hasAdj {a b : Sym} {l : List Sym}
    (h : ¬ HasAdj a b l) : mergePass a b l = l := by
  induction l using mergePass.induct a b with
  | case1 => rfl
  | case2 x => rfl
  | case3 x y rest hm ih => exact absurd (Or.inl hm) h
  | case4 x y rest hm ih => simp [mergePass, if_neg hm, ih (not_hasAdj_tail h)]

/-! ## Lemmas about model application -/

theorem applyOps_cons (p : SPair) (ops : List SPair) (s : List Sym) :
    applyOps (p :: ops) s = applyOps ops (mergePass p.1 p.2 s) := rfl

theorem flatten_applyOps (ops : List SPair) (s : List Sym) :
    (applyOps ops s).flatten = s.flatten := by
  induction ops generalizing s with
  | nil => rfl
  | cons p rest ih => rw [applyOps_cons, ih, join_mergePass]

theorem not_hasAdj_applyOps {a b : Sym} (ops : List SPair) {s : List Sym}
    (h : ¬ HasAdj a b s)
    (hops : ∀ p ∈ ops, p.1 ++ p.2 ≠ a ∧ p.1 ++ p.2 ≠ b) :
    ¬ HasAdj a b (applyOps ops s) := by
  induction ops generalizing s with
  | nil => exact h
  | cons q rest ih =>
    rw [applyOps_cons]
    exact ih
      (not_hasAdj_mergePass_other (hops q (List.mem_cons_self q rest)).1
        (hops q (List.mem_cons_self q rest)).2 h)
      (fun p hp => hops p (List.mem_cons_of_mem q hp))

theorem applyOps_no_self_adj (ops : List SPair)
    (hne : ∀ p ∈ ops, p.1 ≠ [] ∧ p.2 ≠ [])
    (hord : ops.Pairwise (fun p q => q.1 ++ q.2 ≠ p.1 ∧ q.1 ++ q.2 ≠ p.2))
    (s : List Sym) : ∀ p ∈ ops, ¬ HasAdj p.1 p.2 (applyOps ops s) := by
  induction ops generalizing s with
  | nil => intro p hp; cases hp
  | cons q rest ih =>
    intro p hp
    rw [applyOps_cons]
    rcases List.mem_cons.mp hp with rfl | hp'
    · exact not_hasAdj_applyOps rest
        (not_hasAdj_mergePass_self (hne p (List.mem_cons_self p rest)).1
          (hne p (List.mem_cons_self p rest)).2 s)
        (List.pairwise_cons.mp hord).1
    · exact ih (fun r hr => hne r (List.mem_cons_of_mem q hr))
        (List.pairwise_cons.mp hord).2 (mergePass q.1 q.2 s) p hp'

theorem applyOps_id_of_no_adj {ops : List SPair} {s : List Sym}
    (h : ∀ p ∈ ops, ¬ HasAdj p.1 p.2 s) : applyOps ops s = s := by
  induction ops with
  | nil => rfl
  | cons q rest ih =>
    rw [applyOps_cons, mergePass_eq_of_not_hasAdj (h q (List.mem_cons_self q rest))]
    exact ih (fun p hp => h p (List.mem_cons_of_mem q hp))

/-! ## Claim C9 -/

/-- Claim C9 (counterexample): the claim "applying a model twice yields
the same sequence as applying it once" fails for the model
`[(X, YZ), (Y, Z)]` on the sequence `[X, Y, Z]`: one application gives
`[X, YZ]`, a second application merges the first operation and gives
`[XYZ]`. -/
theorem apply_model_twice_ne_once :
    (cexWord.apply_model cexModel).apply_model cexModel ≠ cexWord.apply_model cexModel := by
  decide

/-- Claim C9 (amended): applying a model twice equals applying it once,
provided every operation's two symbols are non-empty and no later
operation's concatenation equals a symbol consumed by an earlier
operation. -/
theorem apply_model_idempotent (m : BPEModel)
    (hne : ∀ p ∈ m.operations, p.1 ≠ [] ∧ p.2 ≠ [])
    (hord : m.operations.Pairwise (fun p q => q.1 ++ q.2 ≠ p.1 ∧ q.1 ++ q.2 ≠ p.2))
    (w : Word) : (w.apply_model m).apply_model m = w.apply_model m := by
  have h := applyOps_id_of_no_adj
    (fun p hp => applyOps_no_self_adj m.operations hne hord w.subwords p hp)
  simp [Word.apply_model, h]

/-- Claim C9 (witness): the amended idempotence applied to the concrete
single-operation model `[(A, B)]` and the sequence `[A, B, C]`. -/
theorem apply_model_idempotent_witness :
    (demoWord.apply_model demoModel).apply_model demoModel = demoWord.apply_model demoModel :=
  apply_model_idempotent demoModel (by decide) (by decide) demoWord

/-! ## Claim C5 -/

theorem flatten_map_singleton (l : List Char) : (l.map (fun c => [c])).flatten = l := by
  induction l with
  | nil => rfl
  | cons c rest ih => simp [ih]

theorem replaceGo_fst (a b : Sym) (w : Int) (l : List Sym) :
    ∀ prev, (replaceGo a b w prev l).1 = mergePass a b l := by
  induction l using mergePass.induct a b with
  | case1 => intro prev; rfl
  | case2 x => intro prev; rfl
  | case3 x y rest h ih =>
    intro prev
    obtain ⟨rfl, rfl⟩ := h
    simp [mergePass, replaceGo, ih]
  | case4 x y rest h ih =>
    intro prev
    simp [mergePass, replaceGo, if_neg h, ih]

theorem dictGet_dictSet {α β : Type} [DecidableEq α] (k k' : α) (v : β)
    (l : List (α × β)) :
    dictGet k (dictSet k' v l) = if k' = k then some v else dictGet k l := by
  induction l with
  | nil => simp [dictSet, dictGet]
  | cons kv rest ih =>
    obtain ⟨k0, v0⟩ := kv
    by_cases h1 : k0 = k'
    · subst h1
      simp only [dictSet, if_pos rfl, dictGet]
      by_cases h2 : k0 = k
      · simp [h2]
      · simp [h2, dictGet]
    · simp only [dictSet, if_neg h1, dictGet]
      by_cases h2 : k0 = k
      · subst h2
        have : k' ≠ k0 := fun h => h1 h.symm
        simp [this]
      · simp [h2, ih]

/-- Invariant preservation along an `Except`-monadic left fold. -/
theorem foldlM_except_inv {σ α : Type} (f : σ → α → Except Err σ) (P : σ → Prop)
    (hstep : ∀ s a s', f s a = .ok s' → P s → P s') :
    ∀ (l : List α) (s s' : σ), l.foldlM f s = .ok s' → P s → P s' := by
  intro l
  induction l with
  | nil =>
    intro s s' h hp
    simp only [List.foldlM_nil] at h
    cases h
    exact hp
  | cons a rest ih =>
    intro s s' h hp
    rw [List.foldlM_cons] at h
    cases hf : f s a with
    | error e => rw [hf] at h; cases h
    | ok s1 =>
      rw [hf] at h
      exact ih s1 s' h (hstep s a s1 hf hp)

theorem replaceStep_preserves_inv (pair : SPair)
    (st st' : Vocabulary × List (SPair × List (Token × Int))) (tok : Token)
    (h : replaceStep pair st tok = .ok st')
    (hp : ∀ t w, dictGet t st.1.words = some w → WordInv w) :
    ∀ t w, dictGet t st'.1.words = some w → WordInv w := by
  unfold replaceStep at h
  cases hg : dictGet tok st.1.words with
  | none => rw [hg] at h; cases h
  | some w0 =>
    rw [hg] at h
    obtain rfl := (Except.ok.inj h).symm
    intro t w hw
    simp only [dictGet_dictSet] at hw
    by_cases ht : tok = t
    · rw [if_pos ht] at hw
      obtain rfl := (Option.some.inj hw).symm
      have hinv := hp tok w0 hg
      simp only [WordInv] at hinv ⊢
      rw [replaceGo_fst, join_mergePass]
      exact hinv
    · rw [if_neg ht] at hw
      exact hp t w hw

/-- Claim C5: every `Word` satisfies "the concatenation of its subwords
equals its token followed by the end-of-token marker" at construction,
and the invariant is preserved by `Word.apply_model` for every model
and by `Vocabulary.replace_bigram` for every bigram. -/
theorem word_concat_invariant :
    (∀ token : Token, WordInv (Word.init token)) ∧
    (∀ (w : Word) (m : BPEModel), WordInv w → WordInv (w.apply_model m)) ∧
    (∀ (voc : Vocabulary) (pair : SPair) (toks : List Token)
       (voc' : Vocabulary) (ds : List (SPair × List (Token × Int))),
       voc.replace_bigram pair toks = .ok (voc', ds) →
       (∀ t w, dictGet t voc.words = some w → WordInv w) →
       ∀ t w, dictGet t voc'.words = some w → WordInv w) := by
  refine ⟨?_, ?_, ?_⟩
  · intro token
    simp [WordInv, Word.init, flatten_map_singleton]
  · intro w m h
    simp only [WordInv, Word.apply_model] at h ⊢
    rw [flatten_applyOps]
    exact h
  · intro voc pair toks voc' ds hrun hp
    have := foldlM_except_inv (replaceStep pair)
      (fun st => ∀ t w, dictGet t st.1.words = some w → WordInv w)
      (fun s a s' h hp => replaceStep_preserves_inv pair s s' a h hp)
      toks (voc, []) (voc', ds) hrun hp
    exact this

/-- Claim C5 (witness): the invariant evaluated on the word `AB`, on a
model application to it, and on the vocabulary of the corpus `aaa`
after replacing the bigram `(A, A)`. -/
theorem word_concat_invariant_witness :
    WordInv (Word.init (strOf "AB")) ∧
    WordInv ((Word.init (strOf "AB")).apply_model demoModel) :=
  ⟨word_concat_invariant.1 (strOf "AB"),
   word_concat_invariant.2.1 _ demoModel (word_concat_invariant.1 (strOf "AB"))⟩

/-! ## Claim C10 -/

theorem add_word_words (voc : Vocabulary) (tok : Token) (m : BPEModel) :
    (voc.add_word tok (some m)).words =
      dictSet tok ((Word.init tok).apply_model m) voc.words := rfl

theorem encodeStep_ok (m : BPEModel) (st : List (List Char) × Vocabulary) (tok : Token) :
    ∃ enc voc₁, encodeStep m st tok = .ok (st.1 ++ [enc], voc₁) ∧
      voc₁ = (if st.2.missing tok then st.2.add_word tok (some m) else st.2) ∧
      (voc₁.map_to_subwords tok = some enc) := by
  by_cases hmiss : st.2.missing tok
  · have hget : dictGet tok (st.2.add_word tok (some m)).words =
        some ((Word.init tok).apply_model m) := by
      rw [add_word_words, dictGet_dictSet, if_pos rfl]
    have hmap : (st.2.add_word tok (some m)).map_to_subwords tok =
        some (joinSp ((Word.init tok).apply_model m).subwords) := by
      simp [Vocabulary.map_to_subwords, hget]
    refine ⟨joinSp ((Word.init tok).apply_model m).subwords,
      st.2.add_word tok (some m), ?_, (if_pos hmiss).symm, hmap⟩
    simp only [encodeStep, hmiss, if_true, hmap]
  · have hsome : ∃ w, dictGet tok st.2.words = some w := by
      unfold Vocabulary.missing at hmiss
      cases hg : dictGet tok st.2.words with
      | none => rw [hg] at hmiss; simp at hmiss
      | some w => exact ⟨w, rfl⟩
    obtain ⟨w, hw⟩ := hsome
    have hmap : st.2.map_to_subwords tok = some (joinSp w.subwords) := by
      simp [Vocabulary.map_to_subwords, hw]
    refine ⟨joinSp w.subwords, st.2, ?_, (if_neg hmiss).symm, hmap⟩
    simp only [encodeStep, if_neg hmiss, hmap]

theorem encodeFold_frame (m : BPEModel) (toks : List Token) :
    ∀ (st : List (List Char) × Vocabulary),
      ∃ st', toks.foldlM (encodeStep m) st = .ok st' ∧
        (∀ tok w, dictGet tok st.2.words = some w → dictGet tok st'.2.words = some w) ∧
        (∀ tok w, dictGet tok st'.2.words = some w →
          dictGet tok st.2.words = some w ∨ w = (Word.init tok).apply_model m) := by
  induction toks with
  | nil =>
    intro st
    exact ⟨st, rfl, fun tok w h => h, fun tok w h => Or.inl h⟩
  | cons tok rest ih =>
    intro st
    obtain ⟨enc, voc₁, hstep, hvoc₁, _⟩ := encodeStep_ok m st tok
    obtain ⟨st', hfold, hpres, hnew⟩ := ih (st.1 ++ [enc], voc₁)
    have hframe1 : ∀ t w, dictGet t st.2.words = some w → dictGet t voc₁.words = some w := by
      intro t w hw
      rw [hvoc₁]
      by_cases hmiss : st.2.missing t
      · unfold Vocabulary.missing at hmiss
        rw [hw] at hmiss
        simp at hmiss
      · by_cases hmiss' : st.2.missing tok
        · rw [if_pos hmiss', add_word_words, dictGet_dictSet]
          have : tok ≠ t := by
            intro h
            subst h
            unfold Vocabulary.missing at hmiss'
            rw [hw] at hmiss'
            simp at hmiss'
          rw [if_neg this]
          exact hw
        · rw [if_neg hmiss']
          exact hw
    have hframe2 : ∀ t w, dictGet t voc₁.words = some w →
        dictGet t st.2.words = some w ∨ w = (Word.init t).apply_model m := by
      intro t w hw
      rw [hvoc₁] at hw
      by_cases hmiss' : st.2.missing tok
      · rw [if_pos hmiss', add_word_words, dictGet_dictSet] at hw
        by_cases ht : tok = t
        · subst ht
          rw [if_pos rfl] at hw
          exact Or.inr (Option.some.inj hw).symm
        · rw [if_neg ht] at hw
          exact Or.inl hw
      · rw [if_neg hmiss'] at hw
        exact Or.inl hw
    refine ⟨st', ?_, ?_, ?_⟩
    · rw [List.foldlM_cons, hstep]
      exact hfold
    · intro t w hw
      exact hpres t w (hframe1 t w hw)
    · intro t w hw
      rcases hnew t w hw with h | h
      · exact hframe2 t w h
      · exact Or.inr h

/-- Claim C10: `encode_text` leaves every word already present in the
vocabulary unchanged (its binding after the call is identical to its
binding before), and every word present afterwards is either an
untouched pre-existing word or a freshly created word obtained by
applying the model to the token's initial decomposition. -/
theorem encode_text_frame (text : List Char) (m : BPEModel) (voc : Vocabulary) :
    ∃ out voc', encode_text text m voc = .ok (out, voc') ∧
      (∀ tok w, dictGet tok voc.words = some w → dictGet tok voc'.words = some w) ∧
      (∀ tok w, dictGet tok voc'.words = some w →
        dictGet tok voc.words = some w ∨ w = (Word.init tok).apply_model m) := by
  obtain ⟨st', hfold, hpres, hnew⟩ :=
    encodeFold_frame m (pySplit (text.map normChar)) ([], voc)
  exact ⟨joinSp st'.1, st'.2, by simp only [encode_text]; rw [hfold]; rfl, hpres, hnew⟩

/-- Claim C10 (witness): the frame property applied to the text `aaa b`
encoded against the vocabulary of the corpus `aaa`. -/
theorem encode_text_frame_witness :
    ∃ out voc', encode_text (strOf "aaa b") demoModel vocAAA = .ok (out, voc') ∧
      (∀ tok w, dictGet tok vocAAA.words = some w → dictGet tok voc'.words = some w) ∧
      (∀ tok w, dictGet tok voc'.words = some w →
        dictGet tok vocAAA.words = some w ∨ w = (Word.init tok).apply_model demoModel) :=
  encode_text_frame (strOf "aaa b") demoModel vocAAA

/-! ## Character classes and tokenization -/

theorem isKeep_ne_space {c : Char} (h : isKeep c = true) : c ≠ ' ' := by
  intro hc
  subst hc
  exact absurd h (by decide)

theorem isKeep_ne_endMark {c : Char} (h : isKeep c = true) : c ≠ endMark := by
  intro hc
  subst hc
  exact absurd h (by decide)

theorem isKeep_not_white {c : Char} (h : isKeep c = true) : isPyWhite c = false := by
  cases hpw : isPyWhite c with
  | false => rfl
  | true =>
    exfalso
    simp only [isPyWhite, Bool.or_eq_true, beq_iff_eq] at hpw
    rcases hpw with ((((rfl | rfl) | rfl) | rfl) | rfl) | rfl <;> exact absurd h (by decide)

theorem normChar_spec (c : Char) : isKeep (normChar c) = true ∨ normChar c = ' ' := by
  unfold normChar scrubChar
  by_cases h : isKeep c.toUpper
  · rw [if_pos h]; exact Or.inl h
  · rw [if_neg h]; exact Or.inr rfl

theorem pySplitGo_chars {Q : Char → Prop} :
    ∀ (l acc : List Char), (∀ c ∈ acc, Q c) → (∀ c ∈ l, Q c) →
      ∀ t ∈ pySplitGo acc l, ∀ c ∈ t, Q c := by
  intro l
  induction l with
  | nil =>
    intro acc hacc _ t ht c hc
    simp only [pySplitGo] at ht
    by_cases h : acc = []
    · rw [if_pos h] at ht; cases ht
    · rw [if_neg h] at ht
      rcases List.mem_singleton.mp ht with rfl
      exact hacc c (List.mem_reverse.mp hc)
  | cons d cs ih =>
    intro acc hacc hl t ht c hc
    simp only [pySplitGo] at ht
    by_cases hw : isPyWhite d
    · rw [if_pos hw] at ht
      by_cases h : acc = []
      · rw [if_pos h] at ht
        exact ih [] (by simp) (fun x hx => hl x (List.mem_cons_of_mem d hx)) t ht c hc
      · rw [if_neg h] at ht
        rcases List.mem_cons.mp ht with rfl | ht'
        · exact hacc c (List.mem_reverse.mp hc)
        · exact ih [] (by simp) (fun x hx => hl x (List.mem_cons_of_mem d hx)) t ht' c hc
    · rw [if_neg hw] at ht
      refine ih (d :: acc) ?_ (fun x hx => hl x (List.mem_cons_of_mem d hx)) t ht c hc
      intro x hx
      rcases List.mem_cons.mp hx with hxd | hx'
      · rw [hxd]; exact hl d (List.mem_cons_self d cs)
      · exact hacc x hx'

theorem pySplitGo_tokens :
    ∀ (l acc : List Char), (∀ c ∈ acc, isPyWhite c = false) →
      ∀ t ∈ pySplitGo acc l, t ≠ [] ∧ ∀ c ∈ t, isPyWhite c = false := by
  intro l
  induction l with
  | nil =>
    intro acc hacc t ht
    simp only [pySplitGo] at ht
    by_cases h : acc = []
    · rw [if_pos h] at ht; cases ht
    · rw [if_neg h] at ht
      rcases List.mem_singleton.mp ht with rfl
      exact ⟨fun hrev => h (by simpa using congrArg List.reverse hrev),
        fun c hc => hacc c (List.mem_reverse.mp hc)⟩
  | cons d cs ih =>
    intro acc hacc t ht
    simp only [pySplitGo] at ht
    by_cases hw : isPyWhite d
    · rw [if_pos hw] at ht
      by_cases h : acc = []
      · rw [if_pos h] at ht
        exact ih [] (by simp) t ht
      · rw [if_neg h] at ht
        rcases List.mem_cons.mp ht with rfl | ht'
        · exact ⟨fun hrev => h (by simpa using congrArg List.reverse hrev),
            fun c hc => hacc c (List.mem_reverse.mp hc)⟩
        · exact ih [] (by simp) t ht'
    · rw [if_neg hw] at ht
      refine ih (d :: acc) ?_ t ht
      intro x hx
      rcases List.mem_cons.mp hx with rfl | hx'
      · simpa using hw
      · exact hacc x hx'

/-- Tokens of a normalized text are non-empty and drawn from `[A-Z']`. -/
theorem normTokens_props (text : List Char) :
    ∀ t ∈ pySplit (text.map normChar), t ≠ [] ∧ ∀ c ∈ t, isKeep c = true := by
  intro t ht
  have hkeepOrSp : ∀ c ∈ t, isKeep c = true ∨ c = ' ' := by
    intro c hc
    refine pySplitGo_chars (Q := fun c => isKeep c = true ∨ c = ' ')
      (text.map normChar) [] (by simp) ?_ t ht c hc
    intro x hx
    obtain ⟨y, _, rfl⟩ := List.mem_map.mp hx
    exact normChar_spec y
  have htok := pySplitGo_tokens (text.map normChar) [] (by simp) t ht
  refine ⟨htok.1, fun c hc => ?_⟩
  rcases hkeepOrSp c hc with h | rfl
  · exact h
  · exact absurd (htok.2 _ hc) (by decide)

/-! ## Lemmas about space-joining, filtering and stripping -/

theorem joinSp_cons_cons (x y : List Char) (xs : List (List Char)) :
    joinSp (x :: y :: xs) = x ++ ' ' :: joinSp (y :: xs) := rfl

theorem joinSp_append_singleton (L : List (List Char)) (z : List Char) (h : L ≠ []) :
    joinSp (L ++ [z]) = joinSp L ++ ' ' :: z := by
  induction L with
  | nil => exact absurd rfl h
  | cons x L ih =>
    cases L with
    | nil => rfl
    | cons y L' =>
      rw [show (x :: y :: L') ++ [z] = x :: ((y :: L') ++ [z]) from rfl]
      rw [show (y :: L') ++ [z] = y :: (L' ++ [z]) from rfl, joinSp_cons_cons]
      rw [show y :: (L' ++ [z]) = (y :: L') ++ [z] from rfl, ih (by simp)]
      rw [joinSp_cons_cons]
      simp

theorem joinSp_rev (L : List (List Char)) :
    (joinSp L).reverse = joinSp (L.reverse.map List.reverse) := by
  induction L with
  | nil => rfl
  | cons x L ih =>
    cases L with
    | nil => rfl
    | cons y L' =>
      rw [joinSp_cons_cons, List.reverse_append]
      rw [show (' ' :: joinSp (y :: L')).reverse
          = (joinSp (y :: L')).reverse ++ [' '] from by simp]
      rw [ih]
      rw [show ((x :: y :: L').reverse.map List.reverse)
          = ((y :: L').reverse.map List.reverse) ++ [x.reverse] from by simp]
      rw [joinSp_append_singleton _ _ (by simp)]
      simp

theorem dropWhile_keep_head (c : Char) (X : List Char) (hc : isKeep c = true) :
    (c :: X).dropWhile isPyWhite = c :: X := by
  rw [List.dropWhile_cons, isKeep_not_white hc]
  simp

theorem joinSp_cons_ex (t : List Char) (rest : List (List Char)) :
    ∃ X, joinSp (t :: rest) = t ++ X := by
  cases rest with
  | nil => exact ⟨[], by simp [joinSp]⟩
  | cons y L => exact ⟨' ' :: joinSp (y :: L), rfl⟩

theorem dropWhile_joinSp_keep (toks : List (List Char)) (hne : toks ≠ [])
    (hts : ∀ t ∈ toks, t ≠ []) (hkeep : ∀ t ∈ toks, ∀ c ∈ t, isKeep c = true)
    (suffix : List Char) :
    (joinSp toks ++ suffix).dropWhile isPyWhite = joinSp toks ++ suffix := by
  cases toks with
  | nil => exact absurd rfl hne
  | cons t rest =>
    obtain ⟨X, hX⟩ := joinSp_cons_ex t rest
    cases t with
    | nil => exact absurd rfl (hts [] (List.mem_cons_self [] rest))
    | cons c t' =>
      rw [hX, List.cons_append, List.cons_append]
      exact dropWhile_keep_head c _
        (hkeep (c :: t') (List.mem_cons_self _ rest) c (List.mem_cons_self c t'))

theorem pyStrip_joinSp_space (toks : List (List Char)) (hne : toks ≠ [])
    (hts : ∀ t ∈ toks, t ≠ []) (hkeep : ∀ t ∈ toks, ∀ c ∈ t, isKeep c = true) :
    pyStrip (joinSp toks ++ [' ']) = joinSp toks := by
  unfold pyStrip
  rw [dropWhile_joinSp_keep toks hne hts hkeep [' ']]
  rw [List.reverse_append]
  rw [show ([' '] : List Char).reverse ++ (joinSp toks).reverse
      = ' ' :: (joinSp toks).reverse from by simp]
  rw [show (' ' :: (joinSp toks).reverse).dropWhile isPyWhite
      = ((joinSp toks).reverse).dropWhile isPyWhite from by
    simp [List.dropWhile_cons, isPyWhite]]
  rw [joinSp_rev]
  have hM : (joinSp (toks.reverse.map List.reverse)).dropWhile isPyWhite
      = joinSp (toks.reverse.map List.reverse) := by
    have hne' : toks.reverse.map List.reverse ≠ [] := by
      intro h
      apply hne
      simpa using h
    have hts' : ∀ t ∈ toks.reverse.map List.reverse, t ≠ [] := by
      intro t ht
      obtain ⟨s, hs, rfl⟩ := List.mem_map.mp ht
      intro h
      exact hts s (List.mem_reverse.mp hs) (by simpa using h)
    have hkeep' : ∀ t ∈ toks.reverse.map List.reverse, ∀ c ∈ t, isKeep c = true := by
      intro t ht c hc
      obtain ⟨s, hs, rfl⟩ := List.mem_map.mp ht
      exact hkeep s (List.mem_reverse.mp hs) c (List.mem_reverse.mp hc)
    have := dropWhile_joinSp_keep (toks.reverse.map List.reverse) hne' hts' hkeep' []
    simpa using this
  rw [hM, ← joinSp_rev, List.reverse_reverse]

theorem map_id_of_mem {α : Type} (f : α → α) (l : List α) (h : ∀ x ∈ l, f x = x) :
    l.map f = l := by
  induction l with
  | nil => rfl
  | cons x l ih =>
    rw [List.map_cons, h x (List.mem_cons_self x l),
      ih (fun y hy => h y (List.mem_cons_of_mem x hy))]

theorem filter_ne_space_eq_self {l : List Char} (h : ∀ c ∈ l, c ≠ ' ') :
    l.filter (fun c => c ≠ ' ') = l := by
  induction l with
  | nil => rfl
  | cons c l ih =>
    rw [List.filter_cons]
    have : (decide (c ≠ ' ')) = true := decide_eq_true (h c (List.mem_cons_self c l))
    simp only [this, if_true]
    rw [ih (fun x hx => h x (List.mem_cons_of_mem c hx))]

theorem filter_joinSp (L : List (List Char)) :
    (joinSp L).filter (fun c => c ≠ ' ')
      = (L.map (fun e => e.filter (fun c => c ≠ ' '))).flatten := by
  induction L with
  | nil => rfl
  | cons x L ih =>
    cases L with
    | nil => simp [joinSp]
    | cons y L' =>
      rw [joinSp_cons_cons, List.filter_append]
      rw [show (' ' :: joinSp (y :: L')).filter (fun c => c ≠ ' ')
          = (joinSp (y :: L')).filter (fun c => c ≠ ' ') from by
        rw [List.filter_cons]; simp]
      rw [ih]
      simp

theorem encOf_filter {t : Token} {e : List Char} (henc : EncOf t e)
    (hkeep : ∀ c ∈ t, isKeep c = true) :
    e.filter (fun c => c ≠ ' ') = t ++ [endMark] := by
  obtain ⟨subs, rfl, hflat⟩ := henc
  rw [filter_joinSp]
  have hsub : ∀ s ∈ subs, s.filter (fun c => c ≠ ' ') = s := by
    intro s hs
    apply filter_ne_space_eq_self
    intro c hc
    have hcf : c ∈ subs.flatten := List.mem_flatten.mpr ⟨s, hs, hc⟩
    rw [hflat] at hcf
    rcases List.mem_append.mp hcf with hct | hcm
    · exact isKeep_ne_space (hkeep c hct)
    · rw [List.mem_singleton.mp hcm]; decide
  rw [map_id_of_mem _ subs hsub, hflat]

theorem forall2_filter (toks : List Token) (es : List (List Char))
    (h : List.Forall₂ EncOf toks es)
    (hkeep : ∀ t ∈ toks, ∀ c ∈ t, isKeep c = true) :
    es.map (fun e => e.filter (fun c => c ≠ ' '))
      = toks.map (fun t => t ++ [endMark]) := by
  induction h with
  | nil => rfl
  | @cons t e toks' es' henc hrest ih =>
    simp only [List.map_cons]
    rw [encOf_filter henc (hkeep t (List.mem_cons_self t toks')),
      ih (fun s hs => hkeep s (List.mem_cons_of_mem t hs))]

theorem mapUnd_flatten_marks (toks : List (List Char))
    (hkeep : ∀ t ∈ toks, ∀ c ∈ t, isKeep c = true) :
    ((toks.map (fun t => t ++ [endMark])).flatten).map
        (fun c => if c = endMark then ' ' else c)
      = (toks.map (fun t => t ++ [' '])).flatten := by
  induction toks with
  | nil => rfl
  | cons t rest ih =>
    simp only [List.map_cons, List.flatten_cons, List.map_append]
    rw [ih (fun s hs => hkeep s (List.mem_cons_of_mem t hs))]
    congr 1
    rw [map_id_of_mem _ t (fun c hc => by
      have hne := isKeep_ne_endMark (hkeep t (List.mem_cons_self t rest) c hc)
      simp [hne])]
    simp [endMark]

theorem flatten_space_tokens (toks : List (List Char)) (hne : toks ≠ []) :
    (toks.map (fun t => t ++ [' '])).flatten = joinSp toks ++ [' '] := by
  induction toks with
  | nil => exact absurd rfl hne
  | cons t rest ih =>
    cases rest with
    | nil => simp [joinSp]
    | cons y L =>
      rw [show ((t :: y :: L).map (fun t => t ++ [' ']))
          = (t ++ [' ']) :: ((y :: L).map (fun t => t ++ [' '])) from rfl]
      rw [List.flatten_cons, ih (by simp), joinSp_cons_cons]
      simp

/-! ## Claim C3 -/

theorem flatten_init_apply (tok : Token) (m : BPEModel) :
    ((Word.init tok).apply_model m).subwords.flatten = tok ++ [endMark] := by
  simp only [Word.apply_model]
  rw [flatten_applyOps]
  simp [Word.init, flatten_map_singleton]

theorem encodeFold_encs (m : BPEModel) (toks : List Token) :
    ∀ st : List (List Char) × Vocabulary, VocFlat st.2 →
      ∃ es voc', toks.foldlM (encodeStep m) st = .ok (st.1 ++ es, voc') ∧
        List.Forall₂ EncOf toks es := by
  induction toks with
  | nil =>
    intro st _
    refine ⟨[], st.2, ?_, List.Forall₂.nil⟩
    rw [List.append_nil]
    rfl
  | cons tok rest ih =>
    intro st hP
    obtain ⟨enc, voc₁, hstep, hvoc₁, hmap⟩ := encodeStep_ok m st tok
    have hP₁ : VocFlat voc₁ := by
      rw [hvoc₁]
      by_cases hmiss : st.2.missing tok
      · rw [if_pos hmiss]
        intro t w hw
        rw [add_word_words, dictGet_dictSet] at hw
        by_cases ht : tok = t
        · rw [if_pos ht] at hw
          obtain rfl := Option.some.inj hw
          rw [← ht]
          exact flatten_init_apply tok m
        · rw [if_neg ht] at hw
          exact hP t w hw
      · rw [if_neg hmiss]; exact hP
    have hew : EncOf tok enc := by
      unfold Vocabulary.map_to_subwords at hmap
      obtain ⟨w, hw, henc⟩ := Option.map_eq_some'.mp hmap
      exact ⟨w.subwords, henc.symm, hP₁ tok w hw⟩
    obtain ⟨es, voc', hfold, hall⟩ := ih (st.1 ++ [enc], voc₁) hP₁
    refine ⟨enc :: es, voc', ?_, List.Forall₂.cons hew hall⟩
    rw [List.foldlM_cons, hstep]
    rw [show st.1 ++ enc :: es = (st.1 ++ [enc]) ++ es from by simp]
    exact hfold

/-- Claim C3: for every text and every model (in particular every model
produced by training), decoding the encoding reproduces the
normalization of the text: uppercase, replace characters outside
`[A-Z']` by spaces, and join the tokens with single spaces. -/
theorem encode_decode_roundtrip (text : List Char) (m : BPEModel) :
    ∃ out voc', encode_text text m Vocabulary.empty = .ok (out, voc') ∧
      decode_subwords out = normalizeText text := by
  obtain ⟨es, voc', hfold, hall⟩ :=
    encodeFold_encs m (pySplit (text.map normChar)) ([], Vocabulary.empty)
      (by intro t w h; cases h)
  rw [List.nil_append] at hfold
  refine ⟨joinSp es, voc', by simp only [encode_text]; rw [hfold]; rfl, ?_⟩
  have hprops := normTokens_props text
  unfold decode_subwords normalizeText
  rw [filter_joinSp,
    forall2_filter (pySplit (text.map normChar)) es hall (fun t ht => (hprops t ht).2),
    mapUnd_flatten_marks (pySplit (text.map normChar)) (fun t ht => (hprops t ht).2)]
  by_cases hne : pySplit (text.map normChar) = []
  · rw [hne]
    rfl
  · rw [flatten_space_tokens _ hne,
      pyStrip_joinSp_space _ hne (fun t ht => (hprops t ht).1)
        (fun t ht => (hprops t ht).2)]

/-- Claim C3 (witness): the round trip evaluated on the text
`hello, world.` with the single-operation model `(A, B)`. -/
theorem encode_decode_roundtrip_witness :
    ∃ out voc', encode_text (strOf "hello, world.") demoModel Vocabulary.empty
        = .ok (out, voc') ∧
      decode_subwords out = normalizeText (strOf "hello, world.") :=
  encode_decode_roundtrip (strOf "hello, world.") demoModel

/-! ## Claim C1 -/

/-- Claim C1 (failing-input evaluation): replacing the bigram `(A, A)`
in the vocabulary of the corpus `aaa` (word `AAA`, weight 1, symbols
`[A, A, A, _]`) returns a delta map that *does* contain the merged pair
`(A, A)` itself as a key, with delta `-1` for token `AAA` — the loss
recorded for the neighbouring pair `(b, next)` coincides with the
merged pair when `a = b`. -/
theorem replace_bigram_records_merged_pair :
    (vocAAA.replace_bigram pairAA [strOf "AAA"]).map (fun r => dictGet pairAA r.2)
      = .ok (some [(strOf "AAA", -1)]) := by
  decide

/-! ## Claim C2 -/

/-- Claim C2 (failing-input evaluation): training on the corpus `aaaa`
with `max_subwords = 10` produces a model with *four* operations
`[(A, A), (AA, AA), (AAAA, _), (A, A)]` and an early stop, not the
three operations the claim states: the phantom negative-frequency
`(A, A)` entry created by `replace_bigram`'s self-delta is picked a
second time once the threshold has decayed below zero. -/
theorem train_aaaa_four_operations :
    (train_model 100 vocAAAA 10).map (fun r => (r.1.operations, r.2.1))
      = .ok ([pairAA, (strOf "AA", strOf "AA"), (strOf "AAAA", strOf "_"), pairAA],
             true) := by
  decide

/-! ## Claim C6 -/

/-- Claim C6 (failing-input evaluation): training on the empty
vocabulary (ingesting an empty corpus) does not stop cleanly at
iteration 0 — `Statistics.from_vocabulary` seeds `set_threshold` with
the falsy maximum frequency `0`, leaving the previous threshold `None`,
and the arithmetic on `None` raises a `TypeError`. -/
theorem train_empty_vocabulary_type_error :
    train_model 100 (Vocabulary.from_text_file []) 1000 = .error .typeError := by
  decide

/-! ## Claim C7 -/

/-- Claim C7 (counterexample): loading a vocabulary file whose two
lines name the same token (`A 2`, `A 3`) is *not* a fatal error: the
load succeeds and the second line's word silently replaces the first,
leaving frequency 3. -/
theorem from_vocabulary_file_duplicate_ok :
    (Vocabulary.from_vocabulary_file dupLines).map
        (fun v => (dictGet (strOf "A") v.words).map Word.frequency)
      = .ok (some 3) := by
  decide

theorem pySplitGo_run (w : List Char) (hw : ∀ c ∈ w, isPyWhite c = false) :
    ∀ (acc rest : List Char), pySplitGo acc (w ++ rest) = pySplitGo (w.reverse ++ acc) rest := by
  induction w with
  | nil => intro acc rest; simp
  | cons c w' ih =>
    intro acc rest
    rw [List.cons_append]
    show pySplitGo acc (c :: (w' ++ rest)) = _
    rw [show pySplitGo acc (c :: (w' ++ rest)) = pySplitGo (c :: acc) (w' ++ rest) from by
      simp only [pySplitGo, hw c (List.mem_cons_self c w')]
      rfl]
    rw [ih (fun x hx => hw x (List.mem_cons_of_mem c hx)) (c :: acc) rest]
    simp

theorem pySplit_single (d : List Char) (hd : d ≠ [])
    (hdw : ∀ c ∈ d, isPyWhite c = false) : pySplit d = [d] := by
  unfold pySplit
  rw [show d = d ++ [] from by simp, pySplitGo_run d hdw [] []]
  simp only [pySplitGo, List.append_nil]
  rw [if_neg (by simpa using hd)]
  simp

theorem pySplit_token_pair (tok d : List Char) (htok : tok ≠ []) (hd : d ≠ [])
    (htw : ∀ c ∈ tok, isPyWhite c = false) (hdw : ∀ c ∈ d, isPyWhite c = false) :
    pySplit (tok ++ ' ' :: d) = [tok, d] := by
  unfold pySplit
  rw [pySplitGo_run tok htw [] (' ' :: d)]
  rw [show pySplitGo (tok.reverse ++ []) (' ' :: d)
      = tok.reverse.reverse :: pySplitGo [] d from by
    simp only [pySplitGo, List.append_nil]
    rw [if_pos (by decide), if_neg (by simpa using htok)]]
  rw [List.reverse_reverse]
  have := pySplit_single d hd hdw
  unfold pySplit at this
  rw [this]

theorem parseInt_ne_nil {d : List Char} {n : Int} (h : parseInt d = some n) : d ≠ [] := by
  intro hd
  subst hd
  simp [parseInt, digitsVal] at h

theorem map_toUpper_line (tok d : List Char)
    (htu : ∀ c ∈ tok, c.toUpper = c) (hdu : ∀ c ∈ d, c.toUpper = c) :
    (tok ++ ' ' :: d).map Char.toUpper = tok ++ ' ' :: d := by
  rw [List.map_append, List.map_cons, map_id_of_mem _ tok htu, map_id_of_mem _ d hdu]
  rfl

theorem add_word_words_none (voc : Vocabulary) (tok : Token) :
    (voc.add_word tok none).words = dictSet tok (Word.init tok) voc.words := rfl

theorem vocabLineStep_eval (voc : Vocabulary) (tok d : List Char) (n : Int)
    (htok : tok ≠ [])
    (htw : ∀ c ∈ tok, isPyWhite c = false) (htu : ∀ c ∈ tok, c.toUpper = c)
    (hdw : ∀ c ∈ d, isPyWhite c = false) (hdu : ∀ c ∈ d, c.toUpper = c)
    (hp : parseInt d = some n) :
    vocabLineStep voc (tok ++ ' ' :: d) =
      .ok { voc.add_word tok none with
            words := dictSet tok ((Word.init tok).update_frequency n)
                       (voc.add_word tok none).words } := by
  have hget : dictGet tok (voc.add_word tok none).words = some (Word.init tok) := by
    rw [add_word_words_none, dictGet_dictSet, if_pos rfl]
  unfold vocabLineStep
  rw [map_toUpper_line tok d htu hdu,
    pySplit_token_pair tok d htok (parseInt_ne_nil hp) htw hdw]
  simp only [hp, hget]

/-- Claim C7 (amended): loading a vocabulary file in which the same
token appears on two lines succeeds — the later line's `add_word`
silently replaces the earlier word, so the token ends with the weight
of its last line (earlier weights are discarded). -/
theorem from_vocabulary_file_duplicate_last_wins
    (tok d1 d2 : List Char) (n1 n2 : Int)
    (htok : tok ≠ [])
    (htw : ∀ c ∈ tok, isPyWhite c = false) (htu : ∀ c ∈ tok, c.toUpper = c)
    (hd1w : ∀ c ∈ d1, isPyWhite c = false) (hd1u : ∀ c ∈ d1, c.toUpper = c)
    (hd2w : ∀ c ∈ d2, isPyWhite c = false) (hd2u : ∀ c ∈ d2, c.toUpper = c)
    (hp1 : parseInt d1 = some n1) (hp2 : parseInt d2 = some n2) :
    ∃ voc, Vocabulary.from_vocabulary_file [tok ++ ' ' :: d1, tok ++ ' ' :: d2]
        = .ok voc ∧
      ∃ w, dictGet tok voc.words = some w ∧ w.frequency = n2 := by
  have h1 := vocabLineStep_eval Vocabulary.empty tok d1 n1 htok htw htu hd1w hd1u hp1
  set v1 : Vocabulary :=
    { Vocabulary.empty.add_word tok none with
      words := dictSet tok ((Word.init tok).update_frequency n1)
                 (Vocabulary.empty.add_word tok none).words } with hv1
  have h2 := vocabLineStep_eval v1 tok d2 n2 htok htw htu hd2w hd2u hp2
  set v2 : Vocabulary :=
    { v1.add_word tok none with
      words := dictSet tok ((Word.init tok).update_frequency n2)
                 (v1.add_word tok none).words } with hv2
  refine ⟨v2, ?_, (Word.init tok).update_frequency n2, ?_, ?_⟩
  · show List.foldlM vocabLineStep Vocabulary.empty
        [tok ++ ' ' :: d1, tok ++ ' ' :: d2] = .ok v2
    rw [List.foldlM_cons, h1]
    show List.foldlM vocabLineStep v1 [tok ++ ' ' :: d2] = .ok v2
    rw [List.foldlM_cons, h2]
    rfl
  · rw [hv2]
    show dictGet tok (dictSet tok ((Word.init tok).update_frequency n2)
      (v1.add_word tok none).words) = _
    rw [dictGet_dictSet, if_pos rfl]
  · simp [Word.init, Word.update_frequency]

/-- Claim C7 (witness): the last-wins behaviour applied to the concrete
duplicate file `A 2` / `A 3`. -/
theorem from_vocabulary_file_duplicate_last_wins_witness :
    ∃ voc, Vocabulary.from_vocabulary_file
        [strOf "A" ++ ' ' :: strOf "2", strOf "A" ++ ' ' :: strOf "3"] = .ok voc ∧
      ∃ w, dictGet (strOf "A") voc.words = some w ∧ w.frequency = 3 :=
  from_vocabulary_file_duplicate_last_wins (strOf "A") (strOf "2") (strOf "3") 2 3
    (by decide) (by decide) (by decide) (by decide) (by decide) (by decide) (by decide)
    (by decide) (by decide)

/-! ## Claim C8 -/

/-- Claim C8 (counterexample): for the vocabulary of the corpus `a`,
`num_characters()` is 2 (the token character `A` plus the end-of-token
marker `_`), not the cardinality 1 of the set of characters appearing
in some token. -/
theorem num_characters_ne_token_chars :
    ¬ ((Vocabulary.from_text_file [strOf "a"]).num_characters
        = (specTokenChars (Vocabulary.from_text_file [strOf "a"])).card) := by
  decide

theorem specTokenChars_def (voc : Vocabulary) :
    specTokenChars voc = voc.words.foldr (fun kv s => kv.1.toFinset ∪ s) ∅ := rfl

theorem tokCharsL_dictSet_present (k : Token) (v : Word) :
    ∀ (l : List (Token × Word)) (w0 : Word), dictGet k l = some w0 →
      (dictSet k v l).foldr (fun kv s => kv.1.toFinset ∪ s) ∅
        = l.foldr (fun kv s => kv.1.toFinset ∪ s) ∅ := by
  intro l
  induction l with
  | nil => intro w0 h; cases h
  | cons kv0 rest ih =>
    intro w0 h
    obtain ⟨k0, v0⟩ := kv0
    by_cases hk : k0 = k
    · subst hk
      rw [show dictSet k0 v ((k0, v0) :: rest) = (k0, v) :: rest from by simp [dictSet]]
      simp only [List.foldr_cons]
    · simp only [dictGet, if_neg hk] at h
      simp only [dictSet, if_neg hk, List.foldr_cons]
      rw [ih w0 h]

theorem tokCharsL_dictSet_missing (k : Token) (v : Word) :
    ∀ (l : List (Token × Word)), dictGet k l = none →
      (dictSet k v l).foldr (fun kv s => kv.1.toFinset ∪ s) ∅
        = k.toFinset ∪ l.foldr (fun kv s => kv.1.toFinset ∪ s) ∅ := by
  intro l
  induction l with
  | nil => intro _; simp [dictSet]
  | cons kv0 rest ih =>
    intro h
    obtain ⟨k0, v0⟩ := kv0
    by_cases hk : k0 = k
    · simp only [dictGet, if_pos hk] at h; cases h
    · simp only [dictGet, if_neg hk] at h
      simp only [dictSet, if_neg hk, List.foldr_cons]
      rw [ih h]
      ext c
      simp only [Finset.mem_union]
      tauto

theorem dictSet_ne_nil {α β : Type} [DecidableEq α] (k : α) (v : β) (l : List (α × β)) :
    dictSet k v l ≠ [] := by
  cases l with
  | nil => simp [dictSet]
  | cons kv rest =>
    obtain ⟨k0, v0⟩ := kv
    simp only [dictSet]
    split <;> simp

theorem list_toFinset_map {α β : Type} [DecidableEq α] [DecidableEq β]
    (f : α → β) (l : List α) : (l.map f).toFinset = l.toFinset.image f := by
  ext b
  simp [List.mem_toFinset, List.mem_map, Finset.mem_image]

theorem add_word_characters (voc : Vocabulary) (tok : Token) (mo : Option BPEModel) :
    (voc.add_word tok mo).characters
      = voc.characters ∪ (tok.toFinset.image (fun c => ([c] : Sym)) ∪ {[endMark]}) := by
  show voc.characters ∪ (Word.init tok).subwords.toFinset = _
  rw [show (Word.init tok).subwords = tok.map (fun c => [c]) ++ [[endMark]] from rfl]
  rw [List.toFinset_append, list_toFinset_map]
  rfl

theorem addTokenStep_charsSpec (voc : Vocabulary) (tok : Token)
    (hkeep : ∀ c ∈ tok, isKeep c = true) (hinv : CharsSpec voc) :
    CharsSpec (addTokenStep voc tok) := by
  obtain ⟨hkp, hdisj⟩ := hinv
  unfold addTokenStep
  by_cases hmiss : voc.missing tok
  · rw [if_pos hmiss]
    have hnone : dictGet tok voc.words = none := by
      unfold Vocabulary.missing at hmiss
      exact Option.isNone_iff_eq_none.mp hmiss
    have hget : dictGet tok (voc.add_word tok none).words = some (Word.init tok) := by
      rw [add_word_words_none, dictGet_dictSet, if_pos rfl]
    simp only [hget]
    have htc : specTokenChars { voc.add_word tok none with
        words := dictSet tok ((Word.init tok).update_frequency 1)
          (voc.add_word tok none).words } = tok.toFinset ∪ specTokenChars voc := by
      rw [specTokenChars_def]
      show (dictSet tok ((Word.init tok).update_frequency 1)
        (voc.add_word tok none).words).foldr (fun kv s => kv.1.toFinset ∪ s) ∅ = _
      rw [tokCharsL_dictSet_present tok _ (voc.add_word tok none).words (Word.init tok) hget]
      rw [add_word_words_none, tokCharsL_dictSet_missing tok _ voc.words hnone]
      rw [specTokenChars_def]
    refine ⟨?_, Or.inr ⟨?_, ?_⟩⟩
    · intro c hc
      rw [htc] at hc
      rcases Finset.mem_union.mp hc with h | h
      · exact hkeep c (List.mem_toFinset.mp h)
      · exact hkp c h
    · show dictSet tok ((Word.init tok).update_frequency 1)
        (voc.add_word tok none).words ≠ []
      exact dictSet_ne_nil _ _ _
    · show (voc.add_word tok none).characters = _
      rw [htc, add_word_characters]
      rcases hdisj with ⟨hw, hch⟩ | ⟨_, hch⟩
      · have hstc : specTokenChars voc = ∅ := by
          rw [specTokenChars_def, hw]
          rfl
        rw [hch, hstc, Finset.union_empty, Finset.empty_union, Finset.insert_eq]
        exact Finset.union_comm _ _
      · rw [hch, Finset.image_union, Finset.insert_eq, Finset.insert_eq]
        ext s
        simp only [Finset.mem_union, Finset.mem_singleton]
        tauto
  · rw [if_neg hmiss]
    have hsome : ∃ w, dictGet tok voc.words = some w := by
      unfold Vocabulary.missing at hmiss
      cases hg : dictGet tok voc.words with
      | none => rw [hg] at hmiss; simp at hmiss
      | some w => exact ⟨w, rfl⟩
    obtain ⟨w, hw⟩ := hsome
    simp only [hw]
    have htc : specTokenChars { voc with
        words := dictSet tok (w.update_frequency 1) voc.words } = specTokenChars voc := by
      rw [specTokenChars_def]
      show (dictSet tok (w.update_frequency 1) voc.words).foldr
        (fun kv s => kv.1.toFinset ∪ s) ∅ = _
      rw [tokCharsL_dictSet_present tok _ voc.words w hw, specTokenChars_def]
    rcases hdisj with ⟨hw0, _⟩ | ⟨_, hch⟩
    · rw [hw0] at hw; cases hw
    · exact ⟨fun c hc => hkp c (htc ▸ hc),
        Or.inr ⟨dictSet_ne_nil _ _ _, by rw [htc]; exact hch⟩⟩

theorem foldl_addTokenStep_charsSpec :
    ∀ (L : List Token) (voc : Vocabulary),
      (∀ t ∈ L, ∀ c ∈ t, isKeep c = true) → CharsSpec voc →
      CharsSpec (L.foldl addTokenStep voc) := by
  intro L
  induction L with
  | nil => intro voc _ h; exact h
  | cons t rest ih =>
    intro voc hkeep hinv
    exact ih (addTokenStep voc t)
      (fun s hs => hkeep s (List.mem_cons_of_mem t hs))
      (addTokenStep_charsSpec voc t (hkeep t (List.mem_cons_self t rest)) hinv)

theorem add_text_charsSpec (voc : Vocabulary) (text : List Char)
    (hinv : CharsSpec voc) : CharsSpec (voc.add_text text) :=
  foldl_addTokenStep_charsSpec (pySplit (text.map normChar)) voc
    (fun t ht => (normTokens_props text t ht).2) hinv

theorem foldl_add_text_charsSpec :
    ∀ (lines : List (List Char)) (voc : Vocabulary), CharsSpec voc →
      CharsSpec (lines.foldl Vocabulary.add_text voc) := by
  intro lines
  induction lines with
  | nil => intro voc h; exact h
  | cons line rest ih => intro voc h; exact ih _ (add_text_charsSpec voc line h)

theorem from_text_file_charsSpec (lines : List (List Char)) :
    CharsSpec (Vocabulary.from_text_file lines) :=
  foldl_add_text_charsSpec lines Vocabulary.empty
    ⟨fun c hc => absurd hc (Finset.not_mem_empty c), Or.inl ⟨rfl, rfl⟩⟩

/-- Claim C8 (amended): for every vocabulary built from text with at
least one word, `num_characters()` equals the cardinality of the set of
characters appearing in some token *plus one*: the `characters` set
also holds the end-of-token marker `_`, which never occurs in a token.
-/
theorem num_characters_eq_token_chars_succ (lines : List (List Char))
    (hne : (Vocabulary.from_text_file lines).words ≠ []) :
    (Vocabulary.from_text_file lines).num_characters
      = (specTokenChars (Vocabulary.from_text_file lines)).card + 1 := by
  obtain ⟨hkp, hdisj⟩ := from_text_file_charsSpec lines
  rcases hdisj with ⟨hw, _⟩ | ⟨_, hch⟩
  · exact absurd hw hne
  · unfold Vocabulary.num_characters
    rw [hch, Finset.card_insert_of_not_mem]
    · rw [Finset.card_image_of_injective _ (fun a b h => (List.cons.inj h).1)]
    · intro hmem
      obtain ⟨c, hc, hcEq⟩ := Finset.mem_image.mp hmem
      have hce : c = endMark := (List.cons.inj hcEq).1
      exact isKeep_ne_endMark (hkp c hc) hce

/-- Claim C8 (witness): the amended count evaluated on the vocabulary
of the corpus `a`: 2 = 1 + 1. -/
theorem num_characters_eq_token_chars_succ_witness :
    (Vocabulary.from_text_file [strOf "a"]).num_characters
      = (specTokenChars (Vocabulary.from_text_file [strOf "a"])).card + 1 :=
  num_characters_eq_token_chars_succ [strOf "a"] (by decide)

/-! ## Claim C4 -/

theorem scanGo_spec (objs : List BEntry) (mf : Int) :
    ∀ (ss : List Nat) (bestId : Nat) (bestE : BEntry),
      objs[bestId]? = some bestE →
      (∀ id ∈ ss, ∃ e, objs[id]? = some e ∧ e.frequency ≤ mf) →
      bestE.frequency ≤ mf →
      ∃ rid re, scanGo objs mf bestId bestE ss = .ok (rid, re) ∧
        objs[rid]? = some re ∧
        ((rid = bestId ∧ re = bestE) ∨ rid ∈ ss) ∧
        bestE.frequency ≤ re.frequency ∧
        (∀ id ∈ ss, ∀ e, objs[id]? = some e → e.frequency ≤ re.frequency) := by
  intro ss
  induction ss with
  | nil =>
    intro bestId bestE hb _ _
    exact ⟨bestId, bestE, rfl, hb, Or.inl ⟨rfl, rfl⟩, le_refl _, by simp⟩
  | cons id rest ih =>
    intro bestId bestE hb hss hbmf
    obtain ⟨e, he, hemf⟩ := hss id (List.mem_cons_self id rest)
    rw [show scanGo objs mf bestId bestE (id :: rest)
        = (if bestE.frequency < e.frequency then scanGo objs mf id e rest
           else if bestE.frequency = mf then .ok (bestId, bestE)
           else scanGo objs mf bestId bestE rest) from by
      simp only [scanGo, he]]
    by_cases hlt : bestE.frequency < e.frequency
    · rw [if_pos hlt]
      obtain ⟨rid, re, hrun, hre, hmem, hge, hmax⟩ :=
        ih id e he (fun i hi => hss i (List.mem_cons_of_mem id hi)) hemf
      refine ⟨rid, re, hrun, hre, ?_, le_of_lt (lt_of_lt_of_le hlt hge), ?_⟩
      · rcases hmem with ⟨h1, _⟩ | h2
        · exact Or.inr (h1 ▸ List.mem_cons_self id rest)
        · exact Or.inr (List.mem_cons_of_mem id h2)
      · intro i hi e' he'
        rcases List.mem_cons.mp hi with hieq | hi'
        · rw [hieq] at he'
          rw [he] at he'
          obtain rfl := Option.some.inj he'
          exact hge
        · exact hmax i hi' e' he'
    · rw [if_neg hlt]
      by_cases heq : bestE.frequency = mf
      · rw [if_pos heq]
        refine ⟨bestId, bestE, rfl, hb, Or.inl ⟨rfl, rfl⟩, le_refl _, ?_⟩
        intro i hi e' he'
        obtain ⟨e2, he2, he2mf⟩ := hss i hi
        rw [he2] at he'
        obtain rfl := Option.some.inj he'
        rw [heq]
        exact he2mf
      · rw [if_neg heq]
        obtain ⟨rid, re, hrun, hre, hmem, hge, hmax⟩ :=
          ih bestId bestE hb (fun i hi => hss i (List.mem_cons_of_mem id hi)) hbmf
        refine ⟨rid, re, hrun, hre, ?_, hge, ?_⟩
        · rcases hmem with h1 | h2
          · exact Or.inl h1
          · exact Or.inr (List.mem_cons_of_mem id h2)
        · intro i hi e' he'
          rcases List.mem_cons.mp hi with hieq | hi'
          · rw [hieq] at he'
            rw [he] at he'
            obtain rfl := Option.some.inj he'
            exact le_trans (le_of_not_lt hlt) hge
          · exact hmax i hi' e' he'

theorem set_threshold_none_spec (s : Stats) (t : Int) (hthr : s.threshold = some t) :
    ∃ t', s.set_threshold none = .ok { s with threshold := some t' } ∧ t' ≤ t - 1 := by
  unfold Stats.set_threshold
  simp only [hthr]
  exact ⟨_, rfl, min_le_right _ _⟩

theorem add_to_search_set_fields (s : Stats) (id : Nat) :
    (s.add_to_search_set id).objs = s.objs ∧
    (s.add_to_search_set id).bigrams = s.bigrams ∧
    (s.add_to_search_set id).threshold = s.threshold ∧
    (s.add_to_search_set id).max_frequency = s.max_frequency ∧
    (s.add_to_search_set id).adaptation_parameter = s.adaptation_parameter ∧
    id ∈ (s.add_to_search_set id).search_set ∧
    (∀ i ∈ s.search_set, i ∈ (s.add_to_search_set id).search_set) ∧
    (∀ i ∈ (s.add_to_search_set id).search_set, i ∈ s.search_set ∨ i = id) := by
  unfold Stats.add_to_search_set
  by_cases h : s.search_set.contains id
  · rw [if_pos h]
    exact ⟨rfl, rfl, rfl, rfl, rfl, by simpa using h, fun i hi => hi,
      fun i hi => Or.inl hi⟩
  · rw [if_neg h]
    refine ⟨rfl, rfl, rfl, rfl, rfl, ?_, ?_, ?_⟩
    · simp
    · intro i hi
      show i ∈ s.search_set ++ [id]
      exact List.mem_append.mpr (Or.inl hi)
    · intro i hi
      rcases List.mem_append.mp hi with h1 | h2
      · exact Or.inl h1
      · exact Or.inr (List.mem_singleton.mp h2)

theorem buildFold_spec (t : Int) :
    ∀ (kvs : List (SPair × Nat)) (s : Stats),
      (∀ kv ∈ kvs, ∃ e, s.objs[kv.2]? = some e) →
      ∃ s', kvs.foldlM (buildStep t) s = .ok s' ∧
        s'.objs = s.objs ∧ s'.bigrams = s.bigrams ∧ s'.threshold = s.threshold ∧
        s'.max_frequency = s.max_frequency ∧
        (∀ id ∈ s.search_set, id ∈ s'.search_set) ∧
        (∀ id ∈ s'.search_set, id ∈ s.search_set ∨ ∃ kv ∈ kvs, kv.2 = id) ∧
        (∀ kv ∈ kvs, ∀ e, s.objs[kv.2]? = some e → t ≤ e.frequency →
          kv.2 ∈ s'.search_set) := by
  intro kvs
  induction kvs with
  | nil =>
    intro s _
    exact ⟨s, rfl, rfl, rfl, rfl, rfl, fun _ h => h, fun _ h => Or.inl h, by simp⟩
  | cons kv rest ih =>
    intro s hval
    obtain ⟨e, he⟩ := hval kv (List.mem_cons_self kv rest)
    have hstep : buildStep t s kv
        = .ok (if t ≤ e.frequency then s.add_to_search_set kv.2 else s) := by
      simp only [buildStep, Stats.getObj, he]
    set s₁ := if t ≤ e.frequency then s.add_to_search_set kv.2 else s with hs₁
    have hf : s₁.objs = s.objs ∧ s₁.bigrams = s.bigrams ∧ s₁.threshold = s.threshold ∧
        s₁.max_frequency = s.max_frequency ∧
        (∀ i ∈ s.search_set, i ∈ s₁.search_set) ∧
        (∀ i ∈ s₁.search_set, i ∈ s.search_set ∨ i = kv.2) ∧
        (t ≤ e.frequency → kv.2 ∈ s₁.search_set) := by
      rw [hs₁]
      by_cases hle : t ≤ e.frequency
      · rw [if_pos hle]
        obtain ⟨h1, h2, h3, h4, _, h6, h7, h8⟩ := add_to_search_set_fields s kv.2
        exact ⟨h1, h2, h3, h4, h7, h8, fun _ => h6⟩
      · rw [if_neg hle]
        exact ⟨rfl, rfl, rfl, rfl, fun _ h => h, fun _ h => Or.inl h,
          fun h => absurd h hle⟩
    obtain ⟨ho, hb, hth, hmf, hsup, hsub, hin⟩ := hf
    obtain ⟨s', hrun, ho', hb', hth', hmf', hsup', hsub', hqual'⟩ :=
      ih s₁ (fun kv' hkv' => by rw [ho]; exact hval kv' (List.mem_cons_of_mem kv hkv'))
    refine ⟨s', ?_, by rw [ho', ho], by rw [hb', hb], by rw [hth', hth],
      by rw [hmf', hmf], ?_, ?_, ?_⟩
    · rw [List.foldlM_cons, hstep]
      exact hrun
    · intro i hi
      exact hsup' i (hsup i hi)
    · intro i hi
      rcases hsub' i hi with h1 | ⟨kv', hkv', hkv2⟩
      · rcases hsub i h1 with h2 | h3
        · exact Or.inl h2
        · exact Or.inr ⟨kv, List.mem_cons_self kv rest, h3.symm⟩
      · exact Or.inr ⟨kv', List.mem_cons_of_mem kv hkv', hkv2⟩
    · intro kv' hkv' e' he' hle'
      rcases List.mem_cons.mp hkv' with hkveq | hkv''
      · rw [hkveq] at he' ⊢
        rw [he] at he'
        obtain rfl := Option.some.inj he'
        exact hsup' kv.2 (hin hle')
      · exact hqual' kv' hkv'' e' (by rw [ho]; exact he') hle'

theorem build_search_set_spec (s : Stats) (t : Int) (hthr : s.threshold = some t)
    (hval : ∀ kv ∈ s.bigrams, ∃ e, s.objs[kv.2]? = some e) :
    ∃ s₂, s.build_search_set = .ok s₂ ∧
      s₂.objs = s.objs ∧ s₂.bigrams = s.bigrams ∧ s₂.threshold = s.threshold ∧
      s₂.max_frequency = s.max_frequency ∧
      (∀ id ∈ s.search_set, id ∈ s₂.search_set) ∧
      (∀ id ∈ s₂.search_set, id ∈ s.search_set ∨ ∃ kv ∈ s.bigrams, kv.2 = id) ∧
      (∀ kv ∈ s.bigrams, ∀ e, s.objs[kv.2]? = some e → t ≤ e.frequency →
        kv.2 ∈ s₂.search_set) := by
  obtain ⟨s', hrun, ho, hb, hth, hmf, hsup, hsub, hqual⟩ := buildFold_spec t s.bigrams s hval
  refine ⟨{ s' with adaptation_parameter :=
      if s'.search_set.length < 100 then s'.adaptation_parameter + 1
      else if 100 < s'.search_set.length then s'.adaptation_parameter - 2
      else s'.adaptation_parameter }, ?_, ho, hb, hth, hmf, hsup, hsub, hqual⟩
  unfold Stats.build_search_set
  simp only [hthr]
  rw [show (s.bigrams.foldlM (buildStep t) s : Except Err Stats)
      = .ok s' from hrun]
  rfl

theorem max_bigram_scan (k : Nat) (s : Stats) (id0 : Nat) (rest : List Nat)
    (hS : s.search_set = id0 :: rest)
    (hne : s.bigrams.isEmpty = false)
    (hwfSS : ∀ id ∈ s.search_set, ∃ e, s.objs[id]? = some e)
    (hubSS : ∀ id ∈ s.search_set, ∀ e, s.objs[id]? = some e →
      e.frequency ≤ s.max_frequency) :
    ∃ rid re, Stats.max_bigram (k + 1) s
        = .ok (some rid, { s with max_frequency := re.frequency }) ∧
      rid ∈ s.search_set ∧ s.objs[rid]? = some re ∧
      (∀ id ∈ s.search_set, ∀ e, s.objs[id]? = some e →
        e.frequency ≤ re.frequency) := by
  obtain ⟨e0, he0⟩ := hwfSS id0 (by rw [hS]; exact List.mem_cons_self id0 rest)
  have hss' : ∀ id ∈ id0 :: rest, ∃ e, s.objs[id]? = some e ∧
      e.frequency ≤ s.max_frequency := by
    intro i hi
    obtain ⟨e, he⟩ := hwfSS i (by rw [hS]; exact hi)
    exact ⟨e, he, hubSS i (by rw [hS]; exact hi) e he⟩
  obtain ⟨rid, re, hrun, hre, hmem, _, hmax⟩ :=
    scanGo_spec s.objs s.max_frequency (id0 :: rest) id0 e0 he0 hss'
      (hubSS id0 (by rw [hS]; exact List.mem_cons_self id0 rest) e0 he0)
  refine ⟨rid, re, ?_, ?_, hre, ?_⟩
  · simp only [Stats.max_bigram, hne, Bool.false_eq_true, if_false, hS,
      Stats.getObj, he0, hrun]
  · rcases hmem with ⟨h1, _⟩ | h2
    · rw [hS, h1]; exact List.mem_cons_self id0 rest
    · rw [hS]; exact h2
  · intro i hi e he
    rw [hS] at hi
    exact hmax i hi e he

/-- Claim C4: under the precondition that `max_frequency` is an upper
bound on the frequency of every bigram object the statistics hold (the
dictionary's and the search set's), `max_bigram` returns none exactly
when the bigram dictionary is empty; otherwise — with fuel covering
the strictly decreasing threshold decay down to the frequency of some
dictionary bigram — it returns a bigram of the (possibly rebuilt after
threshold lowering) search set whose frequency is maximal in that
search set, and records that frequency as the new `max_frequency`; in
particular, the early exit taken when the running best ties the
previous round's `max_frequency` never returns a non-maximal entry. -/
theorem max_bigram_correct :
    ∀ (fuel : Nat) (s : Stats) (t : Int),
      s.threshold = some t →
      (∀ id ∈ s.search_set, ∃ e, s.objs[id]? = some e) →
      (∀ kv ∈ s.bigrams, ∃ e, s.objs[kv.2]? = some e) →
      (∀ id ∈ s.search_set, ∀ e, s.objs[id]? = some e →
        e.frequency ≤ s.max_frequency) →
      (∀ kv ∈ s.bigrams, ∀ e, s.objs[kv.2]? = some e →
        e.frequency ≤ s.max_frequency) →
      1 ≤ fuel →
      (s.bigrams = [] → Stats.max_bigram fuel s = .ok (none, s)) ∧
      (∀ F ∈ s.dictFreqs, (t - F).toNat + 2 ≤ fuel →
        ∃ rid re s', Stats.max_bigram fuel s = .ok (some rid, s') ∧
          s'.objs = s.objs ∧
          rid ∈ s'.search_set ∧
          s'.objs[rid]? = some re ∧
          s'.max_frequency = re.frequency ∧
          (∀ id ∈ s'.search_set, ∀ e, s'.objs[id]? = some e →
            e.frequency ≤ re.frequency)) := by
  intro fuel
  induction fuel using Nat.strong_induction_on with
  | _ fuel ih =>
    intro s t hthr hwfSS hwfD hubSS hubD hfuel1
    obtain ⟨k, rfl⟩ : ∃ k, fuel = k + 1 := ⟨fuel - 1, by omega⟩
    constructor
    · intro hbe
      simp [Stats.max_bigram, hbe]
    · intro F hF hfuel
      obtain ⟨kv, hkv, e, hekv, hefreq⟩ :
          ∃ kv ∈ s.bigrams, ∃ e, s.objs[kv.2]? = some e ∧ e.frequency = F := by
        unfold Stats.dictFreqs at hF
        obtain ⟨kv, hkv, hkvF⟩ := List.mem_filterMap.mp hF
        obtain ⟨e, he, hf⟩ := Option.map_eq_some'.mp hkvF
        exact ⟨kv, hkv, e, he, hf⟩
      have hne : s.bigrams.isEmpty = false := by
        cases hb : s.bigrams with
        | nil => rw [hb] at hkv; cases hkv
        | cons a l => rfl
      cases hS : s.search_set with
      | cons id0 rest =>
        obtain ⟨rid, re, hrun, hmem, hre, hmax⟩ :=
          max_bigram_scan k s id0 rest hS hne hwfSS hubSS
        exact ⟨rid, re, _, hrun, rfl, hmem, hre, rfl, hmax⟩
      | nil =>
        obtain ⟨t', hthr1run, ht'⟩ := set_threshold_none_spec s t hthr
        obtain ⟨s₂, hbrun, ho₂, hb₂, hth₂, hmf₂, _, hsub₂, hqual₂⟩ :=
          build_search_set_spec { s with threshold := some t' } t' rfl
            (fun kv hkv => hwfD kv hkv)
        have hss₂ : ∀ id ∈ s₂.search_set, ∃ kv ∈ s.bigrams, kv.2 = id := by
          intro id hid
          rcases hsub₂ id hid with h1 | h2
          · rw [show ({ s with threshold := some t' } : Stats).search_set
                = s.search_set from rfl, hS] at h1
            cases h1
          · exact h2
        have hwfSS₂ : ∀ id ∈ s₂.search_set, ∃ e, s₂.objs[id]? = some e := by
          intro id hid
          obtain ⟨kv', hkv', rfl⟩ := hss₂ id hid
          rw [ho₂]
          exact hwfD kv' hkv'
        have hubSS₂ : ∀ id ∈ s₂.search_set, ∀ e, s₂.objs[id]? = some e →
            e.frequency ≤ s₂.max_frequency := by
          intro id hid e' he'
          obtain ⟨kv', hkv', rfl⟩ := hss₂ id hid
          rw [ho₂] at he'
          rw [hmf₂]
          exact hubD kv' hkv' e' he'
        rw [hS] at hthr1run hbrun
        have hred : Stats.max_bigram (k + 1) s
            = (match Stats.max_bigram k s₂ with
               | .error er => .error er
               | .ok (some rid, s₃) =>
                 match s₃.getObj rid with
                 | none => .error .attributeError
                 | some re => .ok (some rid, { s₃ with max_frequency := re.frequency })
               | .ok (none, _) => .error .attributeError) := by
          simp only [Stats.max_bigram, hne, Bool.false_eq_true, if_false, hS,
            hthr1run, hbrun]
        have hk1 : 1 ≤ k := by omega
        cases hS₂ : s₂.search_set with
        | cons id0 rest =>
          obtain ⟨k', rfl⟩ : ∃ k', k = k' + 1 := ⟨k - 1, by omega⟩
          have hne₂ : s₂.bigrams.isEmpty = false := by
            rw [hb₂]
            exact hne
          obtain ⟨rid, re, hrun₂, hmem₂, hre₂, hmax₂⟩ :=
            max_bigram_scan k' s₂ id0 rest hS₂ hne₂ hwfSS₂ hubSS₂
          refine ⟨rid, re, { s₂ with max_frequency := re.frequency }, ?_, ?_, ?_, ?_, rfl, ?_⟩
          · rw [hred, hrun₂]
            simp only [Stats.getObj]
            rw [show ({ s₂ with max_frequency := re.frequency } : Stats).objs[rid]?
                = s₂.objs[rid]? from rfl, hre₂]
          · rw [show ({ s₂ with max_frequency := re.frequency } : Stats).objs
                = s₂.objs from rfl, ho₂]
          · exact hmem₂
          · exact hre₂
          · exact hmax₂
        | nil =>
          have hF₂ : F ∈ s₂.dictFreqs := by
            have : s₂.dictFreqs = s.dictFreqs := by
              unfold Stats.dictFreqs Stats.getObj
              rw [hb₂, ho₂]
            rw [this]
            exact hF
          have hFt' : F < t' := by
            by_contra hge
            push_neg at hge
            have := hqual₂ kv hkv e (hekv) (by omega)
            rw [hS₂] at this
            cases this
          have hfuel₂ : (t' - F).toNat + 2 ≤ k := by omega
          obtain ⟨_, hpart2⟩ := ih k (by omega) s₂ t' hth₂ hwfSS₂
            (fun kv' hkv' => by
              rw [ho₂]
              rw [hb₂] at hkv'
              exact hwfD kv' hkv')
            hubSS₂
            (fun kv' hkv' e' he' => by
              rw [hb₂] at hkv'
              rw [ho₂] at he'
              rw [hmf₂]
              exact hubD kv' hkv' e' he')
            hk1
          obtain ⟨rid, re, s₃, hrun₃, ho₃, hmem₃, hre₃, hmfr₃, hmax₃⟩ :=
            hpart2 F hF₂ hfuel₂
          refine ⟨rid, re, { s₃ with max_frequency := re.frequency }, ?_, ?_, ?_, ?_, rfl, ?_⟩
          · rw [hred, hrun₃]
            simp only [Stats.getObj]
            rw [show ({ s₃ with max_frequency := re.frequency } : Stats).objs[rid]?
                = s₃.objs[rid]? from rfl]
            rw [hre₃]
          · show ({ s₃ with max_frequency := re.frequency } : Stats).objs = s.objs
            rw [show ({ s₃ with max_frequency := re.frequency } : Stats).objs
                = s₃.objs from rfl, ho₃, ho₂]
          · exact hmem₃
          · exact hre₃
          · exact hmax₃

/-- Claim C4 (witness): the `max_bigram` specification applied to a
concrete one-entry statistics state (pair `(A, B)`, frequency 2, in
the search set, threshold 1, `max_frequency` 2) with fuel 2. -/
theorem max_bigram_correct_witness :
    (demoStats.bigrams = [] → Stats.max_bigram 2 demoStats = .ok (none, demoStats)) ∧
    (∀ F ∈ demoStats.dictFreqs, ((1 : Int) - F).toNat + 2 ≤ 2 →
      ∃ rid re s', Stats.max_bigram 2 demoStats = .ok (some rid, s') ∧
        s'.objs = demoStats.objs ∧
        rid ∈ s'.search_set ∧
        s'.objs[rid]? = some re ∧
        s'.max_frequency = re.frequency ∧
        (∀ id ∈ s'.search_set, ∀ e, s'.objs[id]? = some e →
          e.frequency ≤ re.frequency)) :=
  max_bigram_correct 2 demoStats 1 rfl
    (by
      intro id hid
      obtain rfl := List.mem_singleton.mp hid
      exact ⟨_, rfl⟩)
    (by
      intro kv hkv
      obtain rfl := List.mem_singleton.mp hkv
      exact ⟨_, rfl⟩)
    (by
      intro id hid e he
      obtain rfl := List.mem_singleton.mp hid
      obtain rfl := Option.some.inj he
      decide)
    (by
      intro kv hkv e he
      obtain rfl := List.mem_singleton.mp hkv
      obtain rfl := Option.some.inj he
      decide)
    (by decide)

end DPBPE
